import Mathlib

/-!
Verification of the host-based dense matrix operations of ViennaCL
(viennacl/linalg/host_based/matrix_operations.hpp).

Buffers are modelled as total functions from a physical offset to a value;
a matrix is a buffer together with a descriptor carrying the start offsets,
strides, logical sizes, padded internal sizes and the layout flag, exactly
the locals every routine of the file extracts through viennacl::traits.
The vcl_size_t arithmetic of the source is modelled by Nat; truncated
Nat subtraction agrees with the unsigned C++ subtraction in every reachable
loop state (no underflow occurs there, which the proofs establish where
needed).
-/

/-- Buffer of scalars indexed by physical offset. -/
def Buf (α : Type) : Type := Nat → α

/-- Store a value at one offset of a buffer. -/
def wr {α : Type} (b : Buf α) (k : Nat) (v : α) : Buf α :=
  fun i => if i = k then v else b i

/-- Sequential loop for i = 0 .. n-1 over a state. -/
def iterUp {σ : Type} (n : Nat) (f : Nat → σ → σ) (s : σ) : σ :=
  (List.range n).foldl (fun s i => f i s) s

/-- Modelled from the spec: viennacl::row_major::mem_index (matrix layout,
not under src): physical offset of logical entry (i, j) in a padded
row-major buffer with internal sizes n1, n2 is i * n2 + j. -/
def rmIndex (i j _n1 n2 : Nat) : Nat := i * n2 + j

/-- Modelled from the spec: viennacl::column_major::mem_index (matrix layout,
not under src): physical offset of logical entry (i, j) in a padded
column-major buffer with internal sizes n1, n2 is i + j * n1. -/
def cmIndex (i j n1 _n2 : Nat) : Nat := i + j * n1

/-- Modelled from the spec: detail::matrix_array_wrapper
(host_based/common.hpp, not under src): the wrapper applied to (r, c) reads
the buffer at mem_index(r * inc1 + start1, c * inc2 + start2, n1, n2),
with mem_index selected by the layout flag. -/
def wrapIdx (rm : Bool) (s1 s2 i1 i2 n1 n2 r c : Nat) : Nat :=
  cond rm (rmIndex (r * i1 + s1) (c * i2 + s2) n1 n2)
          (cmIndex (r * i1 + s1) (c * i2 + s2) n1 n2)

/-- Descriptor of a matrix view: the values each routine of
matrix_operations.hpp extracts via viennacl::traits (start1/2, stride1/2,
size1/2, internal_size1/2) plus the row_major flag. -/
structure MatDesc where
  start1 : Nat
  start2 : Nat
  inc1 : Nat
  inc2 : Nat
  size1 : Nat
  size2 : Nat
  isize1 : Nat
  isize2 : Nat
  rowMajor : Bool

/-- Physical offset of logical entry (r, c) of a view. -/
def MatDesc.off (w : MatDesc) (r c : Nat) : Nat :=
  wrapIdx w.rowMajor w.start1 w.start2 w.inc1 w.inc2 w.isize1 w.isize2 r c

/-- Scalar operations the GEMM template uses on NumericT: literal zero,
addition, multiplication and the two comparisons against zero of the
write-back branch. -/
structure ScalarOps (α : Type) where
  zero : α
  add : α → α → α
  mul : α → α → α
  gtZero : α → Bool
  ltZero : α → Bool

/-- Rational instantiation of NumericT (exact arithmetic). -/
def qOps : ScalarOps ℚ :=
  ⟨0, fun a b => a + b, fun a b => a * b,
   fun x => decide (0 < x), fun x => decide (x < 0)⟩

/-- Floating-point value model: either NaN or an exact integer value.
Rounding and infinities are not modelled; only NaN propagation and the
comparison semantics (every comparison with NaN is false) matter for the
claims. -/
inductive FloatM where
  | NaN : FloatM
  | Val : ℤ → FloatM
deriving DecidableEq

/-- Addition with NaN propagation. -/
def FloatM.fadd : FloatM → FloatM → FloatM
  | FloatM.Val a, FloatM.Val b => FloatM.Val (a + b)
  | _, _ => FloatM.NaN

/-- Multiplication with NaN propagation. -/
def FloatM.fmul : FloatM → FloatM → FloatM
  | FloatM.Val a, FloatM.Val b => FloatM.Val (a * b)
  | _, _ => FloatM.NaN

/-- Comparison beta > 0; false when beta is NaN. -/
def FloatM.fgtZero : FloatM → Bool
  | FloatM.NaN => false
  | FloatM.Val q => decide (0 < q)

/-- Integer instantiation of NumericT (exact arithmetic kernel-computable
in closed evaluations). -/
def zOps : ScalarOps ℤ :=
  ⟨0, fun a b => a + b, fun a b => a * b,
   fun x => decide (0 < x), fun x => decide (x < 0)⟩

/-- Comparison beta < 0; false when beta is NaN. -/
def FloatM.fltZero : FloatM → Bool
  | FloatM.NaN => false
  | FloatM.Val q => decide (q < 0)

/-- Float instantiation of NumericT. -/
def fOps : ScalarOps FloatM :=
  ⟨FloatM.Val 0, FloatM.fadd, FloatM.fmul, FloatM.fgtZero, FloatM.fltZero⟩

/-- Element of a matrix view read through its wrapper. -/
def matElem {α : Type} (d : Buf α) (w : MatDesc) (r c : Nat) : α :=
  d (w.off r c)

/-- Element (r, c) of op(M): the element accessor after resolving the
transposition flag, as pack_matrix_A / pack_matrix_B do. -/
def opElem {α : Type} (tr : Bool) (d : Buf α) (w : MatDesc) (r c : Nat) : α :=
  cond tr (matElem d w c r) (matElem d w r c)

/-- Modelled from the spec: composition of pack_matrix_A / pack_matrix_B
(packing.hpp, not under src) with the micro-kernel
(gemm_standard_micro_kernel.hpp, not under src).  Packing stores
op(A)(row0 + i, k0 + p) at lane i of micro-sliver p and
op(B)(k0 + p, col0 + j) at lane j, and the kernel accumulates
buffer_C[i][j] = sum over p < kcount of Asliver[p][i] * Bsliver[p][j]
into a zero-initialized accumulator. -/
def microTile {α : Type} (S : ScalarOps α) (opA opB : Nat → Nat → α)
    (row0 col0 k0 kcount i j : Nat) : α :=
  iterUp kcount
    (fun p acc => S.add acc (S.mul (opA (row0 + i) (k0 + p)) (opB (k0 + p) (col0 + j))))
    S.zero

/-- Write-back of one register tile into C
(matrix_operations.hpp lines 1281-1306): the general path
C = beta * C + alpha * tile when beta > 0 or beta < 0, otherwise the
zero-optimized path that assigns on k-block 0 and accumulates afterwards.
Both double loops are clipped to min(mr, m - row0) and min(nr, n - col0). -/
def writeTile {α : Type} (S : ScalarOps α) (Cw : MatDesc) (alpha beta : α)
    (firstK : Bool) (m n row0 col0 : Nat) (tile : Nat → Nat → α)
    (mr nr : Nat) (buf : Buf α) : Buf α :=
  cond (S.gtZero beta || S.ltZero beta)
    (iterUp (min mr (m - row0)) (fun i b =>
       iterUp (min nr (n - col0)) (fun j b =>
         wr b (Cw.off (row0 + i) (col0 + j))
            (S.add (S.mul beta (b (Cw.off (row0 + i) (col0 + j))))
                   (S.mul alpha (tile i j)))) b) buf)
    (iterUp (min mr (m - row0)) (fun i b =>
       iterUp (min nr (n - col0)) (fun j b =>
         wr b (Cw.off (row0 + i) (col0 + j))
            (cond firstK (S.mul alpha (tile i j))
                  (S.add (b (Cw.off (row0 + i) (col0 + j)))
                         (S.mul alpha (tile i j))))) b) buf)

/-- The blocked GEMM engine detail::prod
(matrix_operations.hpp lines 1150-1313), with the cache-block and
register-block sizes mc kc nc mr nr passed in (the source obtains them from
get_block_sizes).  A and B enter through their descriptors and transpose
flags; C enters through its wrapper descriptor plus the separately passed
sizes Csize1, Csize2, exactly as in the source.  The state is the buffer
backing C. -/
def prodCore {α : Type} (S : ScalarOps α)
    (dA : Buf α) (Aw : MatDesc) (Atrans : Bool)
    (dB : Buf α) (Bw : MatDesc) (Btrans : Bool)
    (Cw : MatDesc) (Csize1 Csize2 : Nat) (alpha beta : α)
    (mc kc nc mr nr : Nat) (buf : Buf α) : Buf α :=
  let m_size := cond Atrans Aw.size2 Aw.size1
  let k_size := cond Atrans Aw.size1 Aw.size2
  let n_size := cond Btrans Bw.size1 Bw.size2
  cond (Csize1 == 0 || Csize2 == 0 || k_size == 0) buf
    (let numBlocksC1 := (m_size + (mc - 1)) / mc
     let numBlocksC2 := (n_size + (nc - 1)) / nc
     let numBlocksA2 := (k_size + (kc - 1)) / kc
     let numSliversA := mc / mr
     let numSliversB := nc / nr
     let numResSliversA := ((m_size % mc) + (mr - 1)) / mr
     let numResSliversB := ((n_size % nc) + (nr - 1)) / nr
     let opA := opElem Atrans dA Aw
     let opB := opElem Btrans dB Bw
     iterUp numBlocksC2 (fun C2B2 b =>
       iterUp numBlocksA2 (fun A2B1 b =>
         iterUp numBlocksC1 (fun C1A1 b =>
           let maxSliverB := cond (decide (n_size - C2B2 * nc < nc)) numResSliversB numSliversB
           iterUp maxSliverB (fun sB b =>
             let maxSliverA := cond (decide (m_size - C1A1 * mc < mc)) numResSliversA numSliversA
             iterUp maxSliverA (fun sA b =>
               let row0 := C1A1 * mc + sA * mr
               let col0 := C2B2 * nc + sB * nr
               let kcount := min kc (k_size - A2B1 * kc)
               writeTile S Cw alpha beta (A2B1 == 0) m_size n_size row0 col0
                 (fun i j => microTile S opA opB row0 col0 (A2B1 * kc) kcount i j)
                 mr nr b) b) b) b) b) buf)

/-- Modelled from the spec: get_block_sizes (get_block_sizes.hpp, not under
src) chooses register-block sizes mr, nr per numeric type and cache-block
sizes mc, kc, nc bounded by cache capacity (hence independent of how large
m, k, n are), with mc and nc multiples of mr and nr.  Small concrete
constants are used here: (mc, kc, nc, mr, nr) = (4, 4, 4, 2, 2). -/
def get_block_sizes : Nat × Nat × Nat × Nat × Nat := (4, 4, 4, 2, 2)

/-- The dispatcher prod_impl (matrix_operations.hpp lines 1322-1352):
builds the wrapper for C from the descriptor of C (either layout) and
invokes detail::prod with the sizes of C and the block sizes obtained from
get_block_sizes. -/
def prod_impl {α : Type} (S : ScalarOps α)
    (dA : Buf α) (Aw : MatDesc) (Atrans : Bool)
    (dB : Buf α) (Bw : MatDesc) (Btrans : Bool)
    (Cw : MatDesc) (alpha beta : α) (dC : Buf α) : Buf α :=
  prodCore S dA Aw Atrans dB Bw Btrans Cw Cw.size1 Cw.size2 alpha beta
    get_block_sizes.1 get_block_sizes.2.1 get_block_sizes.2.2.1
    get_block_sizes.2.2.2.1 get_block_sizes.2.2.2.2 dC

/-!
Generic lemmas about sequential loops over a buffer state.
-/

theorem iterUp_zero {σ : Type} (f : Nat → σ → σ) (s : σ) : iterUp 0 f s = s := rfl

theorem iterUp_succ {σ : Type} (n : Nat) (f : Nat → σ → σ) (s : σ) :
    iterUp (n + 1) f s = f n (iterUp n f s) := by
  unfold iterUp
  rw [List.range_succ, List.foldl_append]
  rfl

/-- A loop whose every step preserves the value read by `read` preserves it. -/
theorem iterUp_preserve {σ β : Type} (n : Nat) (f : Nat → σ → σ) (read : σ → β)
    (h : ∀ i, i < n → ∀ s : σ, read (f i s) = read s) (s : σ) :
    read (iterUp n f s) = read s := by
  induction n with
  | zero => rfl
  | succ m ih =>
      rw [iterUp_succ, h m (Nat.lt_succ_self m), ih (fun i hi s => h i (Nat.lt_succ_of_lt hi) s)]

/-- A loop in which exactly the step i0 transforms the read value by g, and
all other steps preserve it, transforms the read value by g. -/
theorem iterUp_single {σ β : Type} (n i0 : Nat) (h0 : i0 < n) (f : Nat → σ → σ)
    (read : σ → β) (g : β → β)
    (hother : ∀ i, i < n → i ≠ i0 → ∀ s : σ, read (f i s) = read s)
    (hhit : ∀ s : σ, read (f i0 s) = g (read s)) (s : σ) :
    read (iterUp n f s) = g (read s) := by
  induction n with
  | zero => exact absurd h0 (Nat.not_lt_zero i0)
  | succ m ih =>
      rw [iterUp_succ]
      rcases Nat.lt_succ_iff_lt_or_eq.mp h0 with hlt | heq
      · rw [hother m (Nat.lt_succ_self m) (by omega) _]
        exact ih hlt (fun i hi hne s => hother i (Nat.lt_succ_of_lt hi) hne s)
      · subst heq
        rw [hhit, iterUp_preserve i0 f read
              (fun i hi s => hother i (Nat.lt_succ_of_lt hi) (by omega) s)]

/-- A loop whose every step transforms the read value by g i commutes with
the read: the read of the result is the fold of the g i over the read of
the start state. -/
theorem iterUp_chain {σ β : Type} (n : Nat) (f : Nat → σ → σ) (read : σ → β)
    (g : Nat → β → β)
    (hstep : ∀ i, i < n → ∀ s : σ, read (f i s) = g i (read s)) (s : σ) :
    read (iterUp n f s) = iterUp n g (read s) := by
  induction n with
  | zero => rfl
  | succ m ih =>
      rw [iterUp_succ, iterUp_succ, hstep m (Nat.lt_succ_self m),
          ih (fun i hi s => hstep i (Nat.lt_succ_of_lt hi) s)]

theorem wr_same {α : Type} (b : Buf α) (k : Nat) (v : α) : (wr b k v) k = v := by
  simp [wr]

theorem wr_other {α : Type} (b : Buf α) (k t : Nat) (v : α) (h : t ≠ k) :
    (wr b k v) t = b t := by
  simp [wr, h]

/-- Accumulating loop over rationals equals the finite sum. -/
theorem iterUp_sum (n : Nat) (x : Nat → ℚ) :
    iterUp n (fun p acc => acc + x p) 0 = ∑ p ∈ Finset.range n, x p := by
  induction n with
  | zero => rfl
  | succ m ih => rw [iterUp_succ, ih, Finset.sum_range_succ]

/-- The rational micro tile is the clipped inner-product slice. -/
theorem microTile_eq_sum (opA opB : Nat → Nat → ℚ) (row0 col0 k0 kcount i j : Nat) :
    microTile qOps opA opB row0 col0 k0 kcount i j
    = ∑ p ∈ Finset.range kcount, opA (row0 + i) (k0 + p) * opB (k0 + p) (col0 + j) := by
  unfold microTile
  exact iterUp_sum kcount _

/-- One register-tile write-back leaves every offset that is not among its
clipped write targets unchanged. -/
theorem writeTile_frame {α : Type} (S : ScalarOps α) (Cw : MatDesc) (alpha beta : α)
    (firstK : Bool) (m n row0 col0 : Nat) (tile : Nat → Nat → α) (mr nr : Nat)
    (buf : Buf α) (t : Nat)
    (h : ∀ i, i < min mr (m - row0) → ∀ j, j < min nr (n - col0) →
         t ≠ Cw.off (row0 + i) (col0 + j)) :
    writeTile S Cw alpha beta firstK m n row0 col0 tile mr nr buf t = buf t := by
  unfold writeTile
  cases S.gtZero beta || S.ltZero beta
  all_goals
    exact iterUp_preserve _ _ (fun b => b t)
      (fun i hi b => iterUp_preserve _ _ (fun b => b t)
        (fun j hj b' => wr_other _ _ _ _ (h i hi j hj)) b) buf

/-- The engine writes only to offsets of logical cells of C: any position
that is not the offset of some (r, c) with r below the m dimension and c
below the n dimension is left unchanged. -/
theorem prodCore_frame {α : Type} (S : ScalarOps α)
    (dA : Buf α) (Aw : MatDesc) (Atrans : Bool)
    (dB : Buf α) (Bw : MatDesc) (Btrans : Bool)
    (Cw : MatDesc) (Csize1 Csize2 : Nat) (alpha beta : α)
    (mc kc nc mr nr : Nat) (buf : Buf α) (t : Nat)
    (h : ∀ r, r < (cond Atrans Aw.size2 Aw.size1) →
         ∀ c, c < (cond Btrans Bw.size1 Bw.size2) → t ≠ Cw.off r c) :
    prodCore S dA Aw Atrans dB Bw Btrans Cw Csize1 Csize2 alpha beta mc kc nc mr nr buf t
    = buf t := by
  simp only [prodCore]
  cases (Csize1 == 0 || Csize2 == 0 || (cond Atrans Aw.size1 Aw.size2) == 0)
  case true => rfl
  case false =>
    refine iterUp_preserve _ _ (fun b => b t) (fun C2B2 _ b => ?_) buf
    refine iterUp_preserve _ _ (fun b => b t) (fun A2B1 _ b => ?_) b
    refine iterUp_preserve _ _ (fun b => b t) (fun C1A1 _ b => ?_) b
    refine iterUp_preserve _ _ (fun b => b t) (fun sB _ b => ?_) b
    refine iterUp_preserve _ _ (fun b => b t) (fun sA _ b => ?_) b
    apply writeTile_frame
    intro i hi j hj
    exact h _ (by omega) _ (by omega)

/-- C5: if any of the three product dimensions is zero (C_size1 == 0,
C_size2 == 0, or the k dimension taken from A is zero), detail::prod
returns immediately through its early guard and the buffer backing C is
left unchanged at every offset; in particular beta is never applied. -/
theorem claim_C5_zero_dimension_identity {α : Type} (S : ScalarOps α)
    (dA : Buf α) (Aw : MatDesc) (Atrans : Bool)
    (dB : Buf α) (Bw : MatDesc) (Btrans : Bool)
    (Cw : MatDesc) (Csize1 Csize2 : Nat) (alpha beta : α)
    (mc kc nc mr nr : Nat) (buf : Buf α)
    (h : Csize1 = 0 ∨ Csize2 = 0 ∨ (cond Atrans Aw.size1 Aw.size2) = 0) :
    prodCore S dA Aw Atrans dB Bw Btrans Cw Csize1 Csize2 alpha beta mc kc nc mr nr buf
    = buf := by
  simp only [prodCore]
  rcases h with h | h | h <;> simp [h]

def w0 : MatDesc := ⟨0, 0, 1, 1, 3, 3, 3, 3, true⟩

def b0 : Buf ℚ := fun t => (t : ℚ)

/-- Witness for C5 at a concrete input with C_size1 = 0. -/
theorem claim_C5_zero_dimension_identity_witness :
    (0 = 0 ∨ 3 = 0 ∨ (cond false (3 : Nat) 3) = 0) ∧
    prodCore qOps b0 w0 false b0 w0 false w0 0 3 (5 : ℚ) 7 4 4 4 2 2 b0 = b0 :=
  ⟨Or.inl rfl,
   claim_C5_zero_dimension_identity qOps b0 w0 false b0 w0 false w0 0 3 5 7 4 4 4 2 2 b0
     (Or.inl rfl)⟩

/-- C4: whatever the dimensions (divisible by the block sizes or not), the
write-back loops are clipped by min(mr, m - row0) and min(nr, n - col0) and
the micro-kernel k count by min(kc, k - kblock * kc), so every write of the
engine targets the offset of a logical cell (r, c) with r < m and c < n:
any offset of the buffer backing C outside the image of the logical index
range, padding included, is left unchanged. -/
theorem claim_C4_remainder_clipping_frame {α : Type} (S : ScalarOps α)
    (dA : Buf α) (Aw : MatDesc) (Atrans : Bool)
    (dB : Buf α) (Bw : MatDesc) (Btrans : Bool)
    (Cw : MatDesc) (Csize1 Csize2 : Nat) (alpha beta : α)
    (mc kc nc mr nr : Nat) (buf : Buf α) (t : Nat)
    (h : ∀ r, r < (cond Atrans Aw.size2 Aw.size1) →
         ∀ c, c < (cond Btrans Bw.size1 Bw.size2) → t ≠ Cw.off r c) :
    prodCore S dA Aw Atrans dB Bw Btrans Cw Csize1 Csize2 alpha beta mc kc nc mr nr buf t
    = buf t :=
  prodCore_frame S dA Aw Atrans dB Bw Btrans Cw Csize1 Csize2 alpha beta mc kc nc mr nr
    buf t h

def w5 : MatDesc := ⟨0, 0, 1, 1, 3, 5, 4, 8, true⟩

/-- Witness for C4 at a concrete input with non-divisible dimensions
(m = 3, k = 5, n = 3 against block sizes 4, 4, 4, 2, 2) and a padding
offset: offset 7 = 0 * 8 + 7 lies in the padding of the first row. -/
theorem claim_C4_remainder_clipping_frame_witness :
    (∀ r, r < (cond false (5 : Nat) 3) → ∀ c, c < (cond false (3 : Nat) 5) →
      (7 : Nat) ≠ w5.off r c) ∧
    prodCore qOps b0 w5 false b0 ⟨0, 0, 1, 1, 5, 3, 8, 4, true⟩ false w5 3 3
      (5 : ℚ) 7 4 4 4 2 2 b0 7 = b0 7 :=
  ⟨by decide,
   claim_C4_remainder_clipping_frame qOps b0 w5 false b0 ⟨0, 0, 1, 1, 5, 3, 8, 4, true⟩
     false w5 3 3 5 7 4 4 4 2 2 b0 7 (by decide)⟩

/-- C1 counterexample: a GEMM call with beta = NaN, m = n = k = 1,
A = B = [[1]], alpha = 1, C initially 5 everywhere.  The general accumulate
path would compute beta * C + alpha * tile = NaN * 5 + 1 * 1 = NaN; the
engine instead leaves Val 1 in C, so it took the zero-optimized overwrite
path, refuting the claim. -/
theorem claim_C1_nan_beta_counterexample :
    prodCore fOps (fun _ => FloatM.Val 1) ⟨0, 0, 1, 1, 1, 1, 1, 1, true⟩ false
      (fun _ => FloatM.Val 1) ⟨0, 0, 1, 1, 1, 1, 1, 1, true⟩ false
      ⟨0, 0, 1, 1, 1, 1, 1, 1, true⟩ 1 1 (FloatM.Val 1) FloatM.NaN 4 4 4 2 2
      (fun _ => FloatM.Val 5) 0 = FloatM.Val 1 ∧
    FloatM.fadd (FloatM.fmul FloatM.NaN (FloatM.Val 5))
      (FloatM.fmul (FloatM.Val 1) (FloatM.Val 1)) = FloatM.NaN ∧
    FloatM.Val 1 ≠ FloatM.NaN := by
  refine ⟨by decide, by decide, by decide⟩

/-- C1 amended: since the write-back branch tests beta > 0 and beta < 0 and
both comparisons are false for NaN, a NaN beta makes the engine take the
zero-optimized overwrite path, behaving exactly as if beta were zero; beta
is then never applied to C. -/
theorem claim_C1_nan_beta_takes_overwrite_path
    (dA : Buf FloatM) (Aw : MatDesc) (Atrans : Bool)
    (dB : Buf FloatM) (Bw : MatDesc) (Btrans : Bool)
    (Cw : MatDesc) (Csize1 Csize2 : Nat) (alpha : FloatM)
    (mc kc nc mr nr : Nat) (buf : Buf FloatM) :
    prodCore fOps dA Aw Atrans dB Bw Btrans Cw Csize1 Csize2 alpha FloatM.NaN
      mc kc nc mr nr buf
    = prodCore fOps dA Aw Atrans dB Bw Btrans Cw Csize1 Csize2 alpha (FloatM.Val 0)
      mc kc nc mr nr buf := rfl

/-- Reference from the spec sentence of C2: one cell of the naive
triple-loop GEMM update, alpha * (sum over p < k of op(A)(i, p) * op(B)(p, j))
+ beta * C(i, j). -/
def naiveGemmCell (dA : Buf ℤ) (Aw : MatDesc) (Atrans : Bool)
    (dB : Buf ℤ) (Bw : MatDesc) (Btrans : Bool)
    (Cw : MatDesc) (dC : Buf ℤ) (alpha beta : ℤ) (k i j : Nat) : ℤ :=
  alpha * (∑ p ∈ Finset.range k, opElem Atrans dA Aw i p * opElem Btrans dB Bw p j)
    + beta * dC (Cw.off i j)

/-- C2 failing input: m = n = 1, k = 8, alpha = 1, beta = 2, A and B all
ones, C initially 1, with the modelled block sizes (4, 4, 4, 2, 2) so the
reduction dimension splits into two k-blocks.  The engine applies beta once
per k-block and returns 16; the naive reference is 10. -/
theorem claim_C2_beta_reapplied_per_kblock :
    prod_impl zOps (fun _ => 1) ⟨0, 0, 1, 1, 1, 8, 1, 8, true⟩ false
      (fun _ => 1) ⟨0, 0, 1, 1, 8, 1, 8, 1, true⟩ false
      ⟨0, 0, 1, 1, 1, 1, 1, 1, true⟩ (1 : ℤ) 2 (fun _ => 1) 0 = 16 ∧
    naiveGemmCell (fun _ => 1) ⟨0, 0, 1, 1, 1, 8, 1, 8, true⟩ false
      (fun _ => 1) ⟨0, 0, 1, 1, 8, 1, 8, 1, true⟩ false
      ⟨0, 0, 1, 1, 1, 1, 1, 1, true⟩ (fun _ => 1) 1 2 8 0 0 = 10 ∧
    (16 : ℤ) ≠ 10 := by
  refine ⟨by decide, by decide, by decide⟩

/-!
Block-geometry arithmetic: facts about how a block decomposition with cache
block size bc and register sliver size br covers an index range of length n.
-/

theorem blockIdx_lt (n bc c : Nat) (hbc : 1 ≤ bc) (hc : c < n) :
    c / bc < (n + (bc - 1)) / bc := by
  have h1 : n + (bc - 1) = (n - 1) + bc := by omega
  rw [h1, Nat.add_div_right _ (by omega : 0 < bc)]
  have h3 : c / bc ≤ (n - 1) / bc := Nat.div_le_div_right (by omega)
  omega

theorem div_block_eq (bc c x : Nat) (hlo : (c / bc) * bc ≤ x)
    (hhi : x < (c / bc) * bc + bc) : x / bc = c / bc :=
  Nat.div_eq_of_lt_le hlo
    (by have h : (c / bc + 1) * bc = (c / bc) * bc + bc := by ring
        omega)

theorem mod_eq_sub_div_mul (bc c : Nat) : c % bc = c - (c / bc) * bc := by
  have h1 := Nat.div_add_mod c bc
  have h2 : bc * (c / bc) = (c / bc) * bc := Nat.mul_comm _ _
  omega

theorem last_block_mod (n bc c : Nat) (hbc : 1 ≤ bc) (hc : c < n)
    (hrem : n - (c / bc) * bc < bc) :
    n % bc = n - (c / bc) * bc ∧ n / bc = c / bc := by
  have hlo : (c / bc) * bc ≤ c := Nat.div_mul_le_self c bc
  have hq : n / bc = c / bc := div_block_eq bc c n (by omega) (by omega)
  have h1 := Nat.div_add_mod n bc
  have h2 : bc * (n / bc) = (n / bc) * bc := Nat.mul_comm _ _
  constructor
  · rw [hq] at h1 h2
    omega
  · exact hq

theorem sliverIdx_lt (n bc br c : Nat) (hbr : 1 ≤ br) (hbc : 1 ≤ bc)
    (hdvd : br ∣ bc) (hc : c < n) :
    (c % bc) / br
      < cond (decide (n - (c / bc) * bc < bc)) (((n % bc) + (br - 1)) / br) (bc / br) := by
  by_cases hrem : n - (c / bc) * bc < bc
  · rw [decide_eq_true hrem, cond_true]
    obtain ⟨hmod, hq⟩ := last_block_mod n bc c hbc hc hrem
    have hlo : (c / bc) * bc ≤ c := Nat.div_mul_le_self c bc
    have hcm : c % bc = c - (c / bc) * bc := mod_eq_sub_div_mul bc c
    have hR1 : 1 ≤ n % bc := by omega
    have hle : c % bc ≤ n % bc - 1 := by omega
    have h1 : (c % bc) / br ≤ (n % bc - 1) / br := Nat.div_le_div_right hle
    have h2 : (n % bc) + (br - 1) = (n % bc - 1) + br := by omega
    rw [h2, Nat.add_div_right _ (by omega : 0 < br)]
    omega
  · rw [decide_eq_false hrem, cond_false]
    exact Nat.div_lt_div_of_lt_of_dvd hdvd (Nat.mod_lt c (by omega))

theorem sliver_span_le (bc br R : Nat) (hbr : 1 ≤ br) (hdvd : br ∣ bc) (hR : R < bc) :
    ((R + (br - 1)) / br) * br ≤ bc := by
  have h6 : (R + (br - 1)) / br < bc / br + 1 := by
    rw [Nat.div_lt_iff_lt_mul (by omega : 0 < br)]
    have h3 : (bc / br) * br = bc := Nat.div_mul_cancel hdvd
    have h4 : (bc / br + 1) * br = (bc / br) * br + br := by ring
    omega
  have h7 : (R + (br - 1)) / br ≤ bc / br := by omega
  calc ((R + (br - 1)) / br) * br ≤ (bc / br) * br := Nat.mul_le_mul_right br h7
    _ = bc := Nat.div_mul_cancel hdvd

theorem sliver_write_lt_block (n bc br cB s j : Nat) (hbr : 1 ≤ br) (hbc : 1 ≤ bc)
    (hdvd : br ∣ bc)
    (hs : s < cond (decide (n - cB * bc < bc)) (((n % bc) + (br - 1)) / br) (bc / br))
    (hj : j < br) : s * br + j < bc := by
  by_cases hrem : n - cB * bc < bc
  · rw [decide_eq_true hrem, cond_true] at hs
    have h1 : (s + 1) * br ≤ (((n % bc) + (br - 1)) / br) * br :=
      Nat.mul_le_mul_right br (by omega)
    have h2 : (((n % bc) + (br - 1)) / br) * br ≤ bc :=
      sliver_span_le bc br (n % bc) hbr hdvd (Nat.mod_lt n (by omega))
    have h3 : (s + 1) * br = s * br + br := by ring
    omega
  · rw [decide_eq_false hrem, cond_false] at hs
    have h1 : (s + 1) * br ≤ (bc / br) * br := Nat.mul_le_mul_right br (by omega)
    have h2 : (bc / br) * br = bc := Nat.div_mul_cancel hdvd
    have h3 : (s + 1) * br = s * br + br := by ring
    omega

theorem ne_of_block_ne (bc c B d : Nat) (hd : d < bc) (hB : B ≠ c / bc) :
    B * bc + d ≠ c := by
  intro he
  apply hB
  have h : c / bc = B := Nat.div_eq_of_lt_le (by omega)
    (by have h2 : (B + 1) * bc = B * bc + bc := by ring
        omega)
  omega

theorem ne_of_sliver_ne (bc br c s j : Nat) (hj : j < br)
    (hs : s ≠ (c % bc) / br) :
    (c / bc) * bc + (s * br + j) ≠ c := by
  intro he
  apply hs
  have hlo : (c / bc) * bc ≤ c := Nat.div_mul_le_self c bc
  have hcm : c % bc = c - (c / bc) * bc := mod_eq_sub_div_mul bc c
  have h1 : s * br + j = c % bc := by omega
  have h2 : (c % bc) / br = s := by
    rw [← h1]
    exact Nat.div_eq_of_lt_le (by omega)
      (by have h3 : (s + 1) * br = s * br + br := by ring
          omega)
  omega

theorem target_decomp (bc br c : Nat) :
    (c / bc) * bc + ((c % bc) / br) * br + (c % bc) % br = c := by
  have h1 : (c / bc) * bc + c % bc = c := by
    have h := Nat.div_add_mod c bc
    have h2 : bc * (c / bc) = (c / bc) * bc := Nat.mul_comm _ _
    omega
  have h3 : ((c % bc) / br) * br + (c % bc) % br = c % bc := by
    have h := Nat.div_add_mod (c % bc) br
    have h4 : br * ((c % bc) / br) = ((c % bc) / br) * br := Nat.mul_comm _ _
    omega
  omega

theorem ceil_mul_ge (k kc : Nat) (hkc : 1 ≤ kc) : k ≤ ((k + (kc - 1)) / kc) * kc := by
  have h1 := Nat.div_add_mod (k + (kc - 1)) kc
  have h2 : (k + (kc - 1)) % kc < kc := Nat.mod_lt _ (by omega)
  have h3 : kc * ((k + (kc - 1)) / kc) = ((k + (kc - 1)) / kc) * kc := Nat.mul_comm _ _
  omega

theorem writeTile_zero_hit (Cw : MatDesc) (alpha beta : ℚ) (firstK : Bool)
    (m n row0 col0 mr nr : Nat) (tile : Nat → Nat → ℚ) (buf : Buf ℚ) (r c : Nat)
    (hb : (qOps.gtZero beta || qOps.ltZero beta) = false)
    (hr : r < m) (hc : c < n)
    (hrow : row0 ≤ r) (hi : r - row0 < mr)
    (hcol : col0 ≤ c) (hj : c - col0 < nr)
    (hinj : ∀ r' c', r' < m → c' < n → Cw.off r' c' = Cw.off r c → r' = r ∧ c' = c) :
    writeTile qOps Cw alpha beta firstK m n row0 col0 tile mr nr buf (Cw.off r c)
    = cond firstK (alpha * tile (r - row0) (c - col0))
        (buf (Cw.off r c) + alpha * tile (r - row0) (c - col0)) := by
  unfold writeTile
  rw [hb, cond_false]
  have hi0 : r - row0 < min mr (m - row0) := by omega
  refine iterUp_single _ (r - row0) hi0 _ (fun b => b (Cw.off r c))
    (fun x => cond firstK (alpha * tile (r - row0) (c - col0))
                (x + alpha * tile (r - row0) (c - col0)))
    ?_ ?_ buf
  · intro i hilt hine b
    refine iterUp_preserve _ _ (fun b => b (Cw.off r c)) (fun j hjlt b' => ?_) b
    refine wr_other _ _ _ _ (fun he => ?_)
    have h2 := hinj (row0 + i) (col0 + j) (by omega) (by omega) he.symm
    omega
  · intro b
    have hrew : row0 + (r - row0) = r := by omega
    simp only [hrew]
    have hj0 : c - col0 < min nr (n - col0) := by omega
    refine iterUp_single _ (c - col0) hj0 _ (fun b' => b' (Cw.off r c))
      (fun x => cond firstK (alpha * tile (r - row0) (c - col0))
                  (x + alpha * tile (r - row0) (c - col0)))
      ?_ ?_ b
    · intro j hjlt hjne b'
      refine wr_other _ _ _ _ (fun he => ?_)
      have h2 := hinj r (col0 + j) hr (by omega) he.symm
      omega
    · intro b'
      have hcew : col0 + (c - col0) = c := by omega
      simp only [hcew]
      exact wr_same _ _ _

theorem kblock_pass (Cw : MatDesc) (opA opB : Nat → Nat → ℚ) (alpha beta : ℚ)
    (m k n mc kc nc mr nr : Nat) (r c : Nat) (A2B1 : Nat) (b : Buf ℚ)
    (hb : (qOps.gtZero beta || qOps.ltZero beta) = false)
    (hmr : 1 ≤ mr) (hnr : 1 ≤ nr) (hmc : 1 ≤ mc) (hnc : 1 ≤ nc)
    (hdm : mr ∣ mc) (hdn : nr ∣ nc)
    (hr : r < m) (hc : c < n)
    (hinj : ∀ r' c', r' < m → c' < n → Cw.off r' c' = Cw.off r c → r' = r ∧ c' = c) :
    (iterUp ((m + (mc - 1)) / mc) (fun C1A1 b =>
       iterUp (cond (decide (n - (c / nc) * nc < nc)) (((n % nc) + (nr - 1)) / nr) (nc / nr))
         (fun sB b =>
           iterUp (cond (decide (m - C1A1 * mc < mc)) (((m % mc) + (mr - 1)) / mr) (mc / mr))
             (fun sA b =>
               writeTile qOps Cw alpha beta (A2B1 == 0) m n
                 (C1A1 * mc + sA * mr) ((c / nc) * nc + sB * nr)
                 (fun i j => microTile qOps opA opB (C1A1 * mc + sA * mr)
                    ((c / nc) * nc + sB * nr) (A2B1 * kc) (min kc (k - A2B1 * kc)) i j)
                 mr nr b) b) b) b) (Cw.off r c)
    = cond (A2B1 == 0)
        (alpha * ∑ p ∈ Finset.range (min kc (k - A2B1 * kc)),
           opA r (A2B1 * kc + p) * opB (A2B1 * kc + p) c)
        (b (Cw.off r c) + alpha * ∑ p ∈ Finset.range (min kc (k - A2B1 * kc)),
           opA r (A2B1 * kc + p) * opB (A2B1 * kc + p) c) := by
  have hdecomp_r := target_decomp mc mr r
  have hdecomp_c := target_decomp nc nr c
  have hmodr : (r % mc) % mr < mr := Nat.mod_lt _ (by omega)
  have hmodc : (c % nc) % nr < nr := Nat.mod_lt _ (by omega)
  refine iterUp_single _ (r / mc) (blockIdx_lt m mc r hmc hr) _ (fun b => b (Cw.off r c))
    (fun x => cond (A2B1 == 0)
        (alpha * ∑ p ∈ Finset.range (min kc (k - A2B1 * kc)),
           opA r (A2B1 * kc + p) * opB (A2B1 * kc + p) c)
        (x + alpha * ∑ p ∈ Finset.range (min kc (k - A2B1 * kc)),
           opA r (A2B1 * kc + p) * opB (A2B1 * kc + p) c))
    ?_ ?_ b
  · -- a C1A1 block that does not contain row r leaves the target cell alone
    intro C1A1 hC1lt hC1ne b
    refine iterUp_preserve _ _ (fun b => b (Cw.off r c)) (fun sB hsB b => ?_) b
    refine iterUp_preserve _ _ (fun b => b (Cw.off r c)) (fun sA hsA b => ?_) b
    apply writeTile_frame
    intro i hi j hj heq
    obtain ⟨h2a, h2b⟩ := hinj (C1A1 * mc + sA * mr + i) ((c / nc) * nc + sB * nr + j)
      (by omega) (by omega) heq.symm
    have hd : sA * mr + i < mc :=
      sliver_write_lt_block m mc mr C1A1 sA i hmr hmc hdm hsA (by omega)
    exact ne_of_block_ne mc r C1A1 (sA * mr + i) hd hC1ne (by omega)
  · -- the C1A1 block of row r
    intro b
    refine iterUp_single _ ((c % nc) / nr) (sliverIdx_lt n nc nr c hnr hnc hdn hc) _
      (fun b => b (Cw.off r c))
      (fun x => cond (A2B1 == 0)
          (alpha * ∑ p ∈ Finset.range (min kc (k - A2B1 * kc)),
             opA r (A2B1 * kc + p) * opB (A2B1 * kc + p) c)
          (x + alpha * ∑ p ∈ Finset.range (min kc (k - A2B1 * kc)),
             opA r (A2B1 * kc + p) * opB (A2B1 * kc + p) c))
      ?_ ?_ b
    · -- a column sliver that does not contain column c
      intro sB hsB hsBne b
      refine iterUp_preserve _ _ (fun b => b (Cw.off r c)) (fun sA hsA b => ?_) b
      apply writeTile_frame
      intro i hi j hj heq
      obtain ⟨h2a, h2b⟩ := hinj ((r / mc) * mc + sA * mr + i) ((c / nc) * nc + sB * nr + j)
        (by omega) (by omega) heq.symm
      exact ne_of_sliver_ne nc nr c sB j (by omega) hsBne (by omega)
    · -- the column sliver of c
      intro b
      refine iterUp_single _ ((r % mc) / mr) (sliverIdx_lt m mc mr r hmr hmc hdm hr) _
        (fun b => b (Cw.off r c))
        (fun x => cond (A2B1 == 0)
            (alpha * ∑ p ∈ Finset.range (min kc (k - A2B1 * kc)),
               opA r (A2B1 * kc + p) * opB (A2B1 * kc + p) c)
            (x + alpha * ∑ p ∈ Finset.range (min kc (k - A2B1 * kc)),
               opA r (A2B1 * kc + p) * opB (A2B1 * kc + p) c))
        ?_ ?_ b
      · -- a row sliver that does not contain row r
        intro sA hsA hsAne b
        apply writeTile_frame
        intro i hi j hj heq
        obtain ⟨h2a, h2b⟩ := hinj ((r / mc) * mc + sA * mr + i)
          ((c / nc) * nc + ((c % nc) / nr) * nr + j) (by omega) (by omega) heq.symm
        exact ne_of_sliver_ne mc mr r sA i (by omega) hsAne (by omega)
      · -- the register tile containing (r, c)
        intro b
        have hrow0 : (r / mc) * mc + ((r % mc) / mr) * mr ≤ r := by omega
        have hi2 : r - ((r / mc) * mc + ((r % mc) / mr) * mr) < mr := by omega
        have hcol0 : (c / nc) * nc + ((c % nc) / nr) * nr ≤ c := by omega
        have hj2 : c - ((c / nc) * nc + ((c % nc) / nr) * nr) < nr := by omega
        show writeTile qOps Cw alpha beta (A2B1 == 0) m n _ _ _ mr nr b (Cw.off r c) = _
        rw [writeTile_zero_hit Cw alpha beta (A2B1 == 0) m n _ _ mr nr _ b r c hb hr hc
              hrow0 hi2 hcol0 hj2 hinj]
        have hieq : r - ((r / mc) * mc + ((r % mc) / mr) * mr) = (r % mc) % mr := by omega
        have hjeq : c - ((c / nc) * nc + ((c % nc) / nr) * nr) = (c % nc) % nr := by omega
        rw [hieq, hjeq]
        show cond (A2B1 == 0) (alpha * microTile qOps opA opB _ _ _ _ _ _) _ = _
        rw [microTile_eq_sum]
        rw [hdecomp_r, hdecomp_c]

theorem sum_range_shift_add (f : Nat → ℚ) (a b : Nat) :
    ∑ p ∈ Finset.range (a + b), f p
    = (∑ p ∈ Finset.range a, f p) + ∑ p ∈ Finset.range b, f (a + p) := by
  induction b with
  | zero => simp
  | succ m ih =>
      rw [show a + (m + 1) = (a + m) + 1 from rfl, Finset.sum_range_succ, ih,
          Finset.sum_range_succ, add_assoc]

theorem kblock_fold (alpha : ℚ) (a : Nat → ℚ) (kc k : Nat) (K : Nat)
    (hK : 1 ≤ K) (v : ℚ) :
    iterUp K (fun blk x => cond (blk == 0)
        (alpha * ∑ p ∈ Finset.range (min kc (k - blk * kc)), a (blk * kc + p))
        (x + alpha * ∑ p ∈ Finset.range (min kc (k - blk * kc)), a (blk * kc + p))) v
    = alpha * ∑ p ∈ Finset.range (min (K * kc) k), a p := by
  induction K with
  | zero => omega
  | succ K ih =>
      rcases Nat.eq_zero_or_pos K with h0 | hKpos
      · subst h0
        rw [iterUp_succ, iterUp_zero]
        simp
      · rw [iterUp_succ, ih hKpos]
        have hKne : (K == 0) = false := by
          simp only [beq_eq_false_iff_ne, ne_eq]
          omega
        rw [hKne, cond_false]
        by_cases hsplit : k ≤ K * kc
        · have h1 : min (K * kc) k = k := by omega
          have h2 : k - K * kc = 0 := by omega
          have h3 : min ((K + 1) * kc) k = k := by
            have h4 : (K + 1) * kc = K * kc + kc := by ring
            omega
          rw [h1, h2, h3]
          simp
        · have h1 : min (K * kc) k = K * kc := by omega
          have hsum : min ((K + 1) * kc) k = K * kc + min kc (k - K * kc) := by
            have h4 : (K + 1) * kc = K * kc + kc := by ring
            omega
          rw [h1, hsum, sum_range_shift_add]
          ring

theorem claim_C3_beta_zero_overwrite
    (dA : Buf ℚ) (Aw : MatDesc) (Atrans : Bool)
    (dB : Buf ℚ) (Bw : MatDesc) (Btrans : Bool)
    (Cw : MatDesc) (Csize1 Csize2 : Nat) (alpha : ℚ)
    (mc kc nc mr nr : Nat) (buf : Buf ℚ) (r c : Nat)
    (hCs1 : Csize1 = cond Atrans Aw.size2 Aw.size1)
    (hCs2 : Csize2 = cond Btrans Bw.size1 Bw.size2)
    (hm : 1 ≤ cond Atrans Aw.size2 Aw.size1)
    (hk : 1 ≤ cond Atrans Aw.size1 Aw.size2)
    (hn : 1 ≤ cond Btrans Bw.size1 Bw.size2)
    (hmr : 1 ≤ mr) (hnr : 1 ≤ nr) (hmc : 1 ≤ mc) (hkc : 1 ≤ kc) (hnc : 1 ≤ nc)
    (hdm : mr ∣ mc) (hdn : nr ∣ nc)
    (hr : r < cond Atrans Aw.size2 Aw.size1)
    (hc : c < cond Btrans Bw.size1 Bw.size2)
    (hinj : ∀ r1 c1 r2 c2, r1 < cond Atrans Aw.size2 Aw.size1 →
        c1 < cond Btrans Bw.size1 Bw.size2 → r2 < cond Atrans Aw.size2 Aw.size1 →
        c2 < cond Btrans Bw.size1 Bw.size2 →
        Cw.off r1 c1 = Cw.off r2 c2 → r1 = r2 ∧ c1 = c2) :
    prodCore qOps dA Aw Atrans dB Bw Btrans Cw Csize1 Csize2 alpha 0 mc kc nc mr nr buf
      (Cw.off r c)
    = alpha * ∑ p ∈ Finset.range (cond Atrans Aw.size1 Aw.size2),
        opElem Atrans dA Aw r p * opElem Btrans dB Bw p c := by
  have hb : (qOps.gtZero (0 : ℚ) || qOps.ltZero 0) = false := by
    simp [qOps]
  simp only [prodCore]
  have hg : (Csize1 == 0 || Csize2 == 0 || (cond Atrans Aw.size1 Aw.size2) == 0) = false := by
    simp only [Bool.or_eq_false_iff, beq_eq_false_iff_ne, ne_eq]
    omega
  rw [hg, cond_false]
  refine iterUp_single _ (c / nc) (blockIdx_lt _ nc c hnc hc) _ (fun b => b (Cw.off r c))
    (fun _ => alpha * ∑ p ∈ Finset.range (cond Atrans Aw.size1 Aw.size2),
        opElem Atrans dA Aw r p * opElem Btrans dB Bw p c) ?_ ?_ buf
  · -- an n-block that does not contain column c never touches the target cell
    intro C2B2 hC2lt hC2ne b
    refine iterUp_preserve _ _ (fun b => b (Cw.off r c)) (fun A2B1 hA2 b => ?_) b
    refine iterUp_preserve _ _ (fun b => b (Cw.off r c)) (fun C1A1 hC1 b => ?_) b
    refine iterUp_preserve _ _ (fun b => b (Cw.off r c)) (fun sB hsB b => ?_) b
    refine iterUp_preserve _ _ (fun b => b (Cw.off r c)) (fun sA hsA b => ?_) b
    apply writeTile_frame
    intro i hi j hj heq
    obtain ⟨h2a, h2b⟩ := hinj (C1A1 * mc + sA * mr + i) (C2B2 * nc + sB * nr + j) r c
      (by omega) (by omega) hr hc heq.symm
    have hd : sB * nr + j < nc :=
      sliver_write_lt_block (cond Btrans Bw.size1 Bw.size2) nc nr C2B2 sB j hnr hnc hdn hsB
        (by omega)
    exact ne_of_block_ne nc c C2B2 (sB * nr + j) hd hC2ne (by omega)
  · -- the n-block of column c: every k-block contributes its slice once
    intro b
    have hinjloc : ∀ r' c', r' < cond Atrans Aw.size2 Aw.size1 →
        c' < cond Btrans Bw.size1 Bw.size2 → Cw.off r' c' = Cw.off r c →
        r' = r ∧ c' = c :=
      fun r' c' h1 h2 he => hinj r' c' r c h1 h2 hr hc he
    refine Eq.trans (iterUp_chain _ _ (fun b => b (Cw.off r c))
      (fun A2B1 x => cond (A2B1 == 0)
         (alpha * ∑ p ∈ Finset.range (min kc ((cond Atrans Aw.size1 Aw.size2) - A2B1 * kc)),
            opElem Atrans dA Aw r (A2B1 * kc + p) * opElem Btrans dB Bw (A2B1 * kc + p) c)
         (x + alpha * ∑ p ∈ Finset.range (min kc ((cond Atrans Aw.size1 Aw.size2) - A2B1 * kc)),
            opElem Atrans dA Aw r (A2B1 * kc + p) * opElem Btrans dB Bw (A2B1 * kc + p) c))
      (fun A2B1 _ s => kblock_pass Cw (opElem Atrans dA Aw) (opElem Btrans dB Bw) alpha 0
         (cond Atrans Aw.size2 Aw.size1) (cond Atrans Aw.size1 Aw.size2)
         (cond Btrans Bw.size1 Bw.size2) mc kc nc mr nr r c A2B1 s hb hmr hnr hmc hnc hdm hdn
         hr hc hinjloc) b) ?_
    have hK1 : 1 ≤ (cond Atrans Aw.size1 Aw.size2 + (kc - 1)) / kc := by
      have h0 := blockIdx_lt (cond Atrans Aw.size1 Aw.size2) kc 0 hkc (by omega)
      simpa using h0
    have hmin : min (((cond Atrans Aw.size1 Aw.size2 + (kc - 1)) / kc) * kc)
        (cond Atrans Aw.size1 Aw.size2) = cond Atrans Aw.size1 Aw.size2 := by
      have h1 := ceil_mul_ge (cond Atrans Aw.size1 Aw.size2) kc hkc
      omega
    have hfold := kblock_fold alpha
      (fun p => opElem Atrans dA Aw r p * opElem Btrans dB Bw p c) kc
      (cond Atrans Aw.size1 Aw.size2) ((cond Atrans Aw.size1 Aw.size2 + (kc - 1)) / kc)
      hK1 (b (Cw.off r c))
    rw [hmin] at hfold
    exact hfold

def wA3 : MatDesc := ⟨0, 0, 1, 1, 2, 3, 2, 3, true⟩

def wB3 : MatDesc := ⟨0, 0, 1, 1, 3, 2, 3, 2, true⟩

def wC3d : MatDesc := ⟨0, 0, 1, 1, 2, 2, 2, 2, true⟩

/-- Witness for C3 at a concrete input: m = n = 2, k = 3, block sizes
(2, 2, 2, 1, 1) so the reduction splits into two k-blocks, alpha = 5,
beta = 0, arbitrary initial contents of C. -/
theorem claim_C3_beta_zero_overwrite_witness :
    (1 ≤ cond false wA3.size1 wA3.size2) ∧
    prodCore qOps b0 wA3 false b0 wB3 false wC3d 2 2 (5 : ℚ) 0 2 2 2 1 1 b0 (wC3d.off 1 0)
      = 5 * ∑ p ∈ Finset.range (cond false wA3.size1 wA3.size2),
          opElem false b0 wA3 1 p * opElem false b0 wB3 p 0 := by
  constructor
  · decide
  · exact claim_C3_beta_zero_overwrite b0 wA3 false b0 wB3 false wC3d 2 2 5 2 2 2 1 1 b0 1 0
      rfl rfl (by decide) (by decide) (by decide) (by decide) (by decide) (by decide)
      (by decide) (by decide) (by decide) (by decide) (by decide) (by decide)
      (by
        intro r1 c1 r2 c2 h1 h2 h3 h4 h5
        simp only [wA3, wB3, cond_false] at h1 h2 h3 h4
        simp only [wC3d, MatDesc.off, wrapIdx, rmIndex, cond_true] at h5
        constructor <;> omega)

/-- The blocked transpose trans (matrix_operations.hpp lines 122-239),
row-major branch: the 64 x 64 main part over a flattened block index,
then the right-side remainder, then the bottom-side remainder.  Both
wrappers are typed with the layout of A, exactly as in the source, where
the branch on proxy.lhs().row_major() instantiates both
matrix_array_wrapper with that same layout tag. -/
def transRM {α : Type} (dA : Buf α) (Aw Bw : MatDesc) (buf : Buf α) : Buf α :=
  let sub : Nat := 64
  let rowCount := Aw.size1 / sub
  let colCount := Aw.size2 / sub
  let rowRem := Aw.size1 % sub
  let colRem := Aw.size2 % sub
  let b1 := iterUp (rowCount * colCount) (fun i b =>
    let row := i / colCount
    let col := i % colCount
    iterUp sub (fun j b => iterUp sub (fun k2 b =>
      wr b (wrapIdx true (Bw.start1 + Bw.inc1 * (col * sub)) (Bw.start2 + Bw.inc2 * (row * sub))
             Bw.inc1 Bw.inc2 Bw.isize1 Bw.isize2 j k2)
           (dA (wrapIdx true (Aw.start1 + Aw.inc1 * (row * sub)) (Aw.start2 + Aw.inc2 * (col * sub))
             Aw.inc1 Aw.inc2 Aw.isize1 Aw.isize2 k2 j))) b) b) buf
  let b2 := iterUp colRem (fun j b => iterUp Aw.size1 (fun k2 b =>
    wr b (wrapIdx true (Bw.start1 + Bw.inc1 * (colCount * sub)) Bw.start2
           Bw.inc1 Bw.inc2 Bw.isize1 Bw.isize2 j k2)
         (dA (wrapIdx true Aw.start1 (Aw.start2 + Aw.inc2 * (colCount * sub))
           Aw.inc1 Aw.inc2 Aw.isize1 Aw.isize2 k2 j))) b) b1
  iterUp rowRem (fun j b => iterUp (Aw.size2 - colRem) (fun k2 b =>
    wr b (wrapIdx true Bw.start1 (Bw.start2 + Bw.inc2 * (rowCount * sub))
           Bw.inc1 Bw.inc2 Bw.isize1 Bw.isize2 k2 j)
         (dA (wrapIdx true (Aw.start1 + Aw.inc1 * (rowCount * sub)) Aw.start2
           Aw.inc1 Aw.inc2 Aw.isize1 Aw.isize2 j k2))) b) b2

/-- The blocked transpose trans, column-major branch: identical block
decomposition; the main part assigns wrapper_B(k2, j) = wrapper_A(j, k2)
with both wrappers typed column-major. -/
def transCM {α : Type} (dA : Buf α) (Aw Bw : MatDesc) (buf : Buf α) : Buf α :=
  let sub : Nat := 64
  let rowCount := Aw.size1 / sub
  let colCount := Aw.size2 / sub
  let rowRem := Aw.size1 % sub
  let colRem := Aw.size2 % sub
  let b1 := iterUp (rowCount * colCount) (fun i b =>
    let row := i / colCount
    let col := i % colCount
    iterUp sub (fun j b => iterUp sub (fun k2 b =>
      wr b (wrapIdx false (Bw.start1 + Bw.inc1 * (col * sub)) (Bw.start2 + Bw.inc2 * (row * sub))
             Bw.inc1 Bw.inc2 Bw.isize1 Bw.isize2 k2 j)
           (dA (wrapIdx false (Aw.start1 + Aw.inc1 * (row * sub)) (Aw.start2 + Aw.inc2 * (col * sub))
             Aw.inc1 Aw.inc2 Aw.isize1 Aw.isize2 j k2))) b) b) buf
  let b2 := iterUp colRem (fun j b => iterUp Aw.size1 (fun k2 b =>
    wr b (wrapIdx false (Bw.start1 + Bw.inc1 * (colCount * sub)) Bw.start2
           Bw.inc1 Bw.inc2 Bw.isize1 Bw.isize2 j k2)
         (dA (wrapIdx false Aw.start1 (Aw.start2 + Aw.inc2 * (colCount * sub))
           Aw.inc1 Aw.inc2 Aw.isize1 Aw.isize2 k2 j))) b) b1
  iterUp rowRem (fun j b => iterUp (Aw.size2 - colRem) (fun k2 b =>
    wr b (wrapIdx false Bw.start1 (Bw.start2 + Bw.inc2 * (rowCount * sub))
           Bw.inc1 Bw.inc2 Bw.isize1 Bw.isize2 k2 j)
         (dA (wrapIdx false (Aw.start1 + Aw.inc1 * (rowCount * sub)) Aw.start2
           Aw.inc1 Aw.inc2 Aw.isize1 Aw.isize2 j k2))) b) b2

/-- The dispatch of trans on the layout flag of A (the source tests
proxy.lhs().row_major() once and runs one of two structurally identical
loop nests).  Named transM because the source name trans collides with an
existing root-level declaration. -/
def transM {α : Type} (dA : Buf α) (Aw Bw : MatDesc) (buf : Buf α) : Buf α :=
  cond Aw.rowMajor (transRM dA Aw Bw buf) (transCM dA Aw Bw buf)

/-- Shifting the base of a wrapper by whole multiples of the strides is the
same as shifting the logical indices. -/
theorem shiftOff (rm : Bool) (s1 s2 i1 i2 n1 n2 o1 o2 r c : Nat) :
    wrapIdx rm (s1 + i1 * o1) (s2 + i2 * o2) i1 i2 n1 n2 r c
    = wrapIdx rm s1 s2 i1 i2 n1 n2 (o1 + r) (o2 + c) := by
  cases rm <;> simp [wrapIdx, rmIndex, cmIndex] <;> ring_nf

theorem double_loop_wr_frame {α : Type} (P Q : Nat) (tgt : Nat → Nat → Nat)
    (v : Nat → Nat → α) (t : Nat)
    (hne : ∀ j k, j < P → k < Q → tgt j k ≠ t) (b : Buf α) :
    (iterUp P (fun j b => iterUp Q (fun k b => wr b (tgt j k) (v j k)) b) b) t = b t := by
  refine iterUp_preserve _ _ (fun b => b t) (fun j hj b => ?_) b
  refine iterUp_preserve _ _ (fun b => b t) (fun k hk b => ?_) b
  exact wr_other _ _ _ _ (fun he => hne j k hj hk he.symm)

theorem double_loop_wr_eval {α : Type} (P Q : Nat) (tgt : Nat → Nat → Nat)
    (v : Nat → Nat → α) (t : Nat) (j0 k0 : Nat) (hj0 : j0 < P) (hk0 : k0 < Q)
    (hne : ∀ j k, j < P → k < Q → ¬(j = j0 ∧ k = k0) → tgt j k ≠ t)
    (hhit : tgt j0 k0 = t) (b : Buf α) :
    (iterUp P (fun j b => iterUp Q (fun k b => wr b (tgt j k) (v j k)) b) b) t = v j0 k0 := by
  refine iterUp_single P j0 hj0 _ (fun b => b t) (fun _ => v j0 k0) ?_ ?_ b
  · intro j hj hjne b
    refine iterUp_preserve _ _ (fun b => b t) (fun k hk b => ?_) b
    exact wr_other _ _ _ _ (fun he => hne j k hj hk (fun hp => hjne hp.1) he.symm)
  · intro b
    refine iterUp_single Q k0 hk0 _ (fun b => b t) (fun _ => v j0 k0) ?_ ?_ b
    · intro k hk hkne b
      exact wr_other _ _ _ _ (fun he => hne j0 k hj0 hk (fun hp => hkne hp.2) he.symm)
    · intro b
      rw [hhit]
      exact wr_same _ _ _

theorem pair_div (q a b : Nat) (hb : b < q) :
    (a * q + b) / q = a ∧ (a * q + b) % q = b := by
  have h1 : (a * q + b) / q = a := Nat.div_eq_of_lt_le (by omega)
    (by have h : (a + 1) * q = a * q + q := by ring
        omega)
  refine ⟨h1, ?_⟩
  have h2 := mod_eq_sub_div_mul q (a * q + b)
  rw [h1] at h2
  omega

/-- Shifting only the row base of a wrapper. -/
theorem shiftOff1 (rm : Bool) (s1 s2 i1 i2 n1 n2 o1 r c : Nat) :
    wrapIdx rm (s1 + i1 * o1) s2 i1 i2 n1 n2 r c
    = wrapIdx rm s1 s2 i1 i2 n1 n2 (o1 + r) c := by
  cases rm
  · simp only [wrapIdx, cond_false, cmIndex]
    ring
  · simp only [wrapIdx, cond_true, rmIndex]
    ring

/-- Shifting only the column base of a wrapper. -/
theorem shiftOff2 (rm : Bool) (s1 s2 i1 i2 n1 n2 o2 r c : Nat) :
    wrapIdx rm s1 (s2 + i2 * o2) i1 i2 n1 n2 r c
    = wrapIdx rm s1 s2 i1 i2 n1 n2 r (o2 + c) := by
  cases rm
  · simp only [wrapIdx, cond_false, cmIndex]
    ring
  · simp only [wrapIdx, cond_true, rmIndex]
    ring

theorem transRM_writes {α : Type} (dA : Buf α) (Aw Bw : MatDesc) (buf : Buf α) (i j : Nat)
    (hi : i < Aw.size1) (hj : j < Aw.size2)
    (hinjB : ∀ x y x' y', x < Aw.size2 → y < Aw.size1 → x' < Aw.size2 → y' < Aw.size1 →
       wrapIdx true Bw.start1 Bw.start2 Bw.inc1 Bw.inc2 Bw.isize1 Bw.isize2 x y
       = wrapIdx true Bw.start1 Bw.start2 Bw.inc1 Bw.inc2 Bw.isize1 Bw.isize2 x' y' →
       x = x' ∧ y = y') :
    transRM dA Aw Bw buf
      (wrapIdx true Bw.start1 Bw.start2 Bw.inc1 Bw.inc2 Bw.isize1 Bw.isize2 j i)
    = dA (wrapIdx true Aw.start1 Aw.start2 Aw.inc1 Aw.inc2 Aw.isize1 Aw.isize2 i j) := by
  simp only [transRM, shiftOff, shiftOff1, shiftOff2]
  by_cases hx : j < (Aw.size2 / 64) * 64
  · by_cases hy : i < (Aw.size1 / 64) * 64
    · -- main region
      have hccpos : 1 ≤ Aw.size2 / 64 := by omega
      -- bottom remainder never touches the target
      refine Eq.trans (double_loop_wr_frame _ _ _ _ _ (fun jr kr hjr hkr he => ?_) _) ?_
      · obtain ⟨ha, hb2⟩ := hinjB _ _ j i (by omega) (by omega) hj hi he
        omega
      -- right remainder never touches the target
      refine Eq.trans (double_loop_wr_frame _ _ _ _ _ (fun jr kr hjr hkr he => ?_) _) ?_
      · obtain ⟨ha, hb2⟩ := hinjB _ _ j i (by omega) (by omega) hj hi he
        omega
      -- main part: block (i / 64, j / 64) writes the target exactly once
      have hpd := pair_div (Aw.size2 / 64) (i / 64) (j / 64) (by omega)
      refine iterUp_single _ ((i / 64) * (Aw.size2 / 64) + j / 64) ?_ _
        (fun b => b (wrapIdx true Bw.start1 Bw.start2 Bw.inc1 Bw.inc2 Bw.isize1 Bw.isize2 j i))
        (fun _ => dA (wrapIdx true Aw.start1 Aw.start2 Aw.inc1 Aw.inc2 Aw.isize1 Aw.isize2 i j))
        ?_ ?_ buf
      · have h1 : (i / 64) * (Aw.size2 / 64) + (Aw.size2 / 64)
            = (i / 64 + 1) * (Aw.size2 / 64) := by ring
        have h2 : (i / 64 + 1) * (Aw.size2 / 64) ≤ (Aw.size1 / 64) * (Aw.size2 / 64) :=
          Nat.mul_le_mul_right _ (by omega)
        omega
      · -- any other 64 x 64 block misses the target
        intro iflat hlt hne b
        refine double_loop_wr_frame _ _ _ _ _ (fun jr kr hjr hkr he => ?_) b
        have hcol : iflat % (Aw.size2 / 64) < Aw.size2 / 64 := Nat.mod_lt _ (by omega)
        have hrow : iflat / (Aw.size2 / 64) < Aw.size1 / 64 := by
          rw [Nat.div_lt_iff_lt_mul (by omega)]
          exact hlt
        have hb1 : (iflat % (Aw.size2 / 64)) * 64 + jr < Aw.size2 := by
          have h3 : ((iflat % (Aw.size2 / 64)) + 1) * 64 ≤ (Aw.size2 / 64) * 64 :=
            Nat.mul_le_mul_right _ (by omega)
          have h4 : ((iflat % (Aw.size2 / 64)) + 1) * 64
              = (iflat % (Aw.size2 / 64)) * 64 + 64 := by ring
          omega
        have hb2 : (iflat / (Aw.size2 / 64)) * 64 + kr < Aw.size1 := by
          have h3 : ((iflat / (Aw.size2 / 64)) + 1) * 64 ≤ (Aw.size1 / 64) * 64 :=
            Nat.mul_le_mul_right _ (by omega)
          have h4 : ((iflat / (Aw.size2 / 64)) + 1) * 64
              = (iflat / (Aw.size2 / 64)) * 64 + 64 := by ring
          omega
        obtain ⟨hceq, hreq⟩ := hinjB _ _ j i hb1 hb2 hj hi he
        have hw1 : iflat / (Aw.size2 / 64) = i / 64 := by omega
        have hw2 : iflat % (Aw.size2 / 64) = j / 64 := by omega
        have hfd := Nat.div_add_mod iflat (Aw.size2 / 64)
        rw [hw1, hw2] at hfd
        have hcomm : (Aw.size2 / 64) * (i / 64) = (i / 64) * (Aw.size2 / 64) :=
          Nat.mul_comm _ _
        omega
      · -- inside the hit block, exactly the local pair (j mod 64, i mod 64) hits
        intro b
        rw [hpd.1, hpd.2]
        refine Eq.trans (double_loop_wr_eval 64 64 _ _ _ (j % 64) (i % 64)
          (by omega) (by omega) (fun jr kr hjr hkr hpne he => ?_) ?_ b) ?_
        · obtain ⟨hceq, hreq⟩ := hinjB _ _ j i (by omega) (by omega) hj hi he
          exact hpne ⟨by omega, by omega⟩
        · have h5 : (j / 64) * 64 + j % 64 = j := by omega
          have h6 : (i / 64) * 64 + i % 64 = i := by omega
          rw [h5, h6]
        · have h5 : (j / 64) * 64 + j % 64 = j := by omega
          have h6 : (i / 64) * 64 + i % 64 = i := by omega
          rw [h5, h6]
    · -- bottom region: i in the bottom remainder rows; the bottom remainder
      -- write wins whatever the two earlier segments did
      refine Eq.trans (double_loop_wr_eval _ _ _ _ _ (i - (Aw.size1 / 64) * 64) j
        (by omega) (by omega) (fun jr kr hjr hkr hpne he => ?_) ?_ _) ?_
      · obtain ⟨hceq, hreq⟩ := hinjB _ _ j i (by omega) (by omega) hj hi he
        exact hpne ⟨by omega, by omega⟩
      · have h5 : (Aw.size1 / 64) * 64 + (i - (Aw.size1 / 64) * 64) = i := by omega
        rw [h5]
      · have h5 : (Aw.size1 / 64) * 64 + (i - (Aw.size1 / 64) * 64) = i := by omega
        rw [h5]
  · -- right region: j in the right remainder columns
    have hcc64 : (Aw.size2 / 64) * 64 ≤ Aw.size2 := by omega
    -- bottom remainder never touches the target
    refine Eq.trans (double_loop_wr_frame _ _ _ _ _ (fun jr kr hjr hkr he => ?_) _) ?_
    · obtain ⟨ha, hb2⟩ := hinjB _ _ j i (by omega) (by omega) hj hi he
      omega
    -- right remainder hits the target exactly once, overwriting the main part
    refine Eq.trans (double_loop_wr_eval _ _ _ _ _ (j - (Aw.size2 / 64) * 64) i
      (by omega) (by omega) (fun jr kr hjr hkr hpne he => ?_) ?_ _) ?_
    · obtain ⟨hceq, hreq⟩ := hinjB _ _ j i (by omega) (by omega) hj hi he
      exact hpne ⟨by omega, by omega⟩
    · have h5 : (Aw.size2 / 64) * 64 + (j - (Aw.size2 / 64) * 64) = j := by omega
      rw [h5]
    · have h5 : (Aw.size2 / 64) * 64 + (j - (Aw.size2 / 64) * 64) = j := by omega
      rw [h5]

theorem transCM_writes {α : Type} (dA : Buf α) (Aw Bw : MatDesc) (buf : Buf α) (i j : Nat)
    (hi : i < Aw.size1) (hj : j < Aw.size2)
    (hinjB : ∀ x y x' y', x < Aw.size2 → y < Aw.size1 → x' < Aw.size2 → y' < Aw.size1 →
       wrapIdx false Bw.start1 Bw.start2 Bw.inc1 Bw.inc2 Bw.isize1 Bw.isize2 x y
       = wrapIdx false Bw.start1 Bw.start2 Bw.inc1 Bw.inc2 Bw.isize1 Bw.isize2 x' y' →
       x = x' ∧ y = y') :
    transCM dA Aw Bw buf
      (wrapIdx false Bw.start1 Bw.start2 Bw.inc1 Bw.inc2 Bw.isize1 Bw.isize2 j i)
    = dA (wrapIdx false Aw.start1 Aw.start2 Aw.inc1 Aw.inc2 Aw.isize1 Aw.isize2 i j) := by
  simp only [transCM, shiftOff, shiftOff1, shiftOff2]
  by_cases hx : j < (Aw.size2 / 64) * 64
  · by_cases hy : i < (Aw.size1 / 64) * 64
    · -- main region
      have hccpos : 1 ≤ Aw.size2 / 64 := by omega
      -- bottom remainder never touches the target
      refine Eq.trans (double_loop_wr_frame _ _ _ _ _ (fun jr kr hjr hkr he => ?_) _) ?_
      · obtain ⟨ha, hb2⟩ := hinjB _ _ j i (by omega) (by omega) hj hi he
        omega
      -- right remainder never touches the target
      refine Eq.trans (double_loop_wr_frame _ _ _ _ _ (fun jr kr hjr hkr he => ?_) _) ?_
      · obtain ⟨ha, hb2⟩ := hinjB _ _ j i (by omega) (by omega) hj hi he
        omega
      -- main part: block (i / 64, j / 64) writes the target exactly once
      have hpd := pair_div (Aw.size2 / 64) (i / 64) (j / 64) (by omega)
      refine iterUp_single _ ((i / 64) * (Aw.size2 / 64) + j / 64) ?_ _
        (fun b => b (wrapIdx false Bw.start1 Bw.start2 Bw.inc1 Bw.inc2 Bw.isize1 Bw.isize2 j i))
        (fun _ => dA (wrapIdx false Aw.start1 Aw.start2 Aw.inc1 Aw.inc2 Aw.isize1 Aw.isize2 i j))
        ?_ ?_ buf
      · have h1 : (i / 64) * (Aw.size2 / 64) + (Aw.size2 / 64)
            = (i / 64 + 1) * (Aw.size2 / 64) := by ring
        have h2 : (i / 64 + 1) * (Aw.size2 / 64) ≤ (Aw.size1 / 64) * (Aw.size2 / 64) :=
          Nat.mul_le_mul_right _ (by omega)
        omega
      · -- any other 64 x 64 block misses the target
        intro iflat hlt hne b
        refine double_loop_wr_frame _ _ _ _ _ (fun jr kr hjr hkr he => ?_) b
        have hcol : iflat % (Aw.size2 / 64) < Aw.size2 / 64 := Nat.mod_lt _ (by omega)
        have hrow : iflat / (Aw.size2 / 64) < Aw.size1 / 64 := by
          rw [Nat.div_lt_iff_lt_mul (by omega)]
          exact hlt
        have hb1 : (iflat % (Aw.size2 / 64)) * 64 + kr < Aw.size2 := by
          have h3 : ((iflat % (Aw.size2 / 64)) + 1) * 64 ≤ (Aw.size2 / 64) * 64 :=
            Nat.mul_le_mul_right _ (by omega)
          have h4 : ((iflat % (Aw.size2 / 64)) + 1) * 64
              = (iflat % (Aw.size2 / 64)) * 64 + 64 := by ring
          omega
        have hb2 : (iflat / (Aw.size2 / 64)) * 64 + jr < Aw.size1 := by
          have h3 : ((iflat / (Aw.size2 / 64)) + 1) * 64 ≤ (Aw.size1 / 64) * 64 :=
            Nat.mul_le_mul_right _ (by omega)
          have h4 : ((iflat / (Aw.size2 / 64)) + 1) * 64
              = (iflat / (Aw.size2 / 64)) * 64 + 64 := by ring
          omega
        obtain ⟨hceq, hreq⟩ := hinjB _ _ j i hb1 hb2 hj hi he
        have hw1 : iflat / (Aw.size2 / 64) = i / 64 := by omega
        have hw2 : iflat % (Aw.size2 / 64) = j / 64 := by omega
        have hfd := Nat.div_add_mod iflat (Aw.size2 / 64)
        rw [hw1, hw2] at hfd
        have hcomm : (Aw.size2 / 64) * (i / 64) = (i / 64) * (Aw.size2 / 64) :=
          Nat.mul_comm _ _
        omega
      · -- inside the hit block, exactly the local pair (j mod 64, i mod 64) hits
        intro b
        rw [hpd.1, hpd.2]
        refine Eq.trans (double_loop_wr_eval 64 64 _ _ _ (i % 64) (j % 64)
          (by omega) (by omega) (fun jr kr hjr hkr hpne he => ?_) ?_ b) ?_
        · obtain ⟨hceq, hreq⟩ := hinjB _ _ j i (by omega) (by omega) hj hi he
          exact hpne ⟨by omega, by omega⟩
        · have h5 : (j / 64) * 64 + j % 64 = j := by omega
          have h6 : (i / 64) * 64 + i % 64 = i := by omega
          rw [h5, h6]
        · have h5 : (j / 64) * 64 + j % 64 = j := by omega
          have h6 : (i / 64) * 64 + i % 64 = i := by omega
          rw [h5, h6]
    · -- bottom region: i in the bottom remainder rows; the bottom remainder
      -- write wins whatever the two earlier segments did
      refine Eq.trans (double_loop_wr_eval _ _ _ _ _ (i - (Aw.size1 / 64) * 64) j
        (by omega) (by omega) (fun jr kr hjr hkr hpne he => ?_) ?_ _) ?_
      · obtain ⟨hceq, hreq⟩ := hinjB _ _ j i (by omega) (by omega) hj hi he
        exact hpne ⟨by omega, by omega⟩
      · have h5 : (Aw.size1 / 64) * 64 + (i - (Aw.size1 / 64) * 64) = i := by omega
        rw [h5]
      · have h5 : (Aw.size1 / 64) * 64 + (i - (Aw.size1 / 64) * 64) = i := by omega
        rw [h5]
  · -- right region: j in the right remainder columns
    have hcc64 : (Aw.size2 / 64) * 64 ≤ Aw.size2 := by omega
    -- bottom remainder never touches the target
    refine Eq.trans (double_loop_wr_frame _ _ _ _ _ (fun jr kr hjr hkr he => ?_) _) ?_
    · obtain ⟨ha, hb2⟩ := hinjB _ _ j i (by omega) (by omega) hj hi he
      omega
    -- right remainder hits the target exactly once, overwriting the main part
    refine Eq.trans (double_loop_wr_eval _ _ _ _ _ (j - (Aw.size2 / 64) * 64) i
      (by omega) (by omega) (fun jr kr hjr hkr hpne he => ?_) ?_ _) ?_
    · obtain ⟨hceq, hreq⟩ := hinjB _ _ j i (by omega) (by omega) hj hi he
      exact hpne ⟨by omega, by omega⟩
    · have h5 : (Aw.size2 / 64) * 64 + (j - (Aw.size2 / 64) * 64) = j := by omega
      rw [h5]
    · have h5 : (Aw.size2 / 64) * 64 + (j - (Aw.size2 / 64) * 64) = j := by omega
      rw [h5]

theorem transM_writes {α : Type} (dA : Buf α) (Aw Bw : MatDesc) (buf : Buf α) (i j : Nat)
    (hi : i < Aw.size1) (hj : j < Aw.size2)
    (hinjB : ∀ x y x' y', x < Aw.size2 → y < Aw.size1 → x' < Aw.size2 → y' < Aw.size1 →
       wrapIdx Aw.rowMajor Bw.start1 Bw.start2 Bw.inc1 Bw.inc2 Bw.isize1 Bw.isize2 x y
       = wrapIdx Aw.rowMajor Bw.start1 Bw.start2 Bw.inc1 Bw.inc2 Bw.isize1 Bw.isize2 x' y' →
       x = x' ∧ y = y') :
    transM dA Aw Bw buf
      (wrapIdx Aw.rowMajor Bw.start1 Bw.start2 Bw.inc1 Bw.inc2 Bw.isize1 Bw.isize2 j i)
    = dA (Aw.off i j) := by
  unfold transM MatDesc.off
  cases hrm : Aw.rowMajor
  · rw [cond_false]
    rw [hrm] at hinjB
    exact transCM_writes dA Aw Bw buf i j hi hj hinjB
  · rw [cond_true]
    rw [hrm] at hinjB
    exact transRM_writes dA Aw Bw buf i j hi hj hinjB

/-- C6: the blocked transpose writes temp_trans(j, i) = A(i, j) for every
logical pair (i, j), in both layouts and for arbitrary strides and offsets
(assuming the destination offsets of distinct logical cells do not alias),
with the 64 x 64 main decomposition and the two remainder loops together
covering every pair; consequently transposing twice gives back every
element of A. -/
theorem claim_C6_trans_transpose_roundtrip {α : Type}
    (dA : Buf α) (Aw Bw Cw : MatDesc) (buf1 buf2 : Buf α) (i j : Nat)
    (hi : i < Aw.size1) (hj : j < Aw.size2)
    (hinjB : ∀ x y x' y', x < Aw.size2 → y < Aw.size1 → x' < Aw.size2 → y' < Aw.size1 →
       wrapIdx Aw.rowMajor Bw.start1 Bw.start2 Bw.inc1 Bw.inc2 Bw.isize1 Bw.isize2 x y
       = wrapIdx Aw.rowMajor Bw.start1 Bw.start2 Bw.inc1 Bw.inc2 Bw.isize1 Bw.isize2 x' y' →
       x = x' ∧ y = y')
    (hBrm : Bw.rowMajor = Aw.rowMajor) (hB1 : Bw.size1 = Aw.size2) (hB2 : Bw.size2 = Aw.size1)
    (hinjC : ∀ x y x' y', x < Bw.size2 → y < Bw.size1 → x' < Bw.size2 → y' < Bw.size1 →
       wrapIdx Bw.rowMajor Cw.start1 Cw.start2 Cw.inc1 Cw.inc2 Cw.isize1 Cw.isize2 x y
       = wrapIdx Bw.rowMajor Cw.start1 Cw.start2 Cw.inc1 Cw.inc2 Cw.isize1 Cw.isize2 x' y' →
       x = x' ∧ y = y') :
    transM dA Aw Bw buf1
      (wrapIdx Aw.rowMajor Bw.start1 Bw.start2 Bw.inc1 Bw.inc2 Bw.isize1 Bw.isize2 j i)
      = dA (Aw.off i j)
    ∧ transM (transM dA Aw Bw buf1) Bw Cw buf2
        (wrapIdx Bw.rowMajor Cw.start1 Cw.start2 Cw.inc1 Cw.inc2 Cw.isize1 Cw.isize2 i j)
      = dA (Aw.off i j) := by
  constructor
  · exact transM_writes dA Aw Bw buf1 i j hi hj hinjB
  · have h2 := transM_writes (transM dA Aw Bw buf1) Bw Cw buf2 j i (by omega) (by omega) hinjC
    rw [h2]
    have h3 : Bw.off j i
        = wrapIdx Aw.rowMajor Bw.start1 Bw.start2 Bw.inc1 Bw.inc2 Bw.isize1 Bw.isize2 j i := by
      unfold MatDesc.off
      rw [hBrm]
    rw [h3]
    exact transM_writes dA Aw Bw buf1 i j hi hj hinjB

def wA6 : MatDesc := ⟨0, 0, 1, 1, 2, 3, 2, 3, true⟩

def wB6 : MatDesc := ⟨0, 0, 1, 1, 3, 2, 3, 2, true⟩

def wC6 : MatDesc := ⟨0, 0, 1, 1, 2, 3, 2, 3, true⟩

/-- Witness for C6: a concrete 2 x 3 row-major matrix transposed into a
3 x 2 destination and back. -/
theorem claim_C6_trans_transpose_roundtrip_witness :
    ((1 : Nat) < wA6.size1) ∧
    (transM b0 wA6 wB6 b0
        (wrapIdx wA6.rowMajor wB6.start1 wB6.start2 wB6.inc1 wB6.inc2 wB6.isize1 wB6.isize2 2 1)
        = b0 (wA6.off 1 2)
      ∧ transM (transM b0 wA6 wB6 b0) wB6 wC6 b0
          (wrapIdx wB6.rowMajor wC6.start1 wC6.start2 wC6.inc1 wC6.inc2 wC6.isize1 wC6.isize2 1 2)
        = b0 (wA6.off 1 2)) := by
  refine ⟨by decide, ?_⟩
  refine claim_C6_trans_transpose_roundtrip b0 wA6 wB6 wC6 b0 b0 1 2 (by decide) (by decide)
    ?_ (by decide) (by decide) (by decide) ?_
  · intro x y x' y' h1 h2 h3 h4 h5
    simp only [wA6, wB6, cond_true, wrapIdx, rmIndex] at h1 h2 h3 h4 h5
    constructor <;> omega
  · intro x y x' y' h1 h2 h3 h4 h5
    simp only [wB6, wC6, cond_true, wrapIdx, rmIndex] at h1 h2 h3 h4 h5
    constructor <;> omega

/-- The element-wise copy convert (matrix_operations.hpp lines 68-116):
asserts equal layouts, then copies mat2 into mat1 element by element with a
static cast, iterating rows-outer for row-major and columns-outer for
column-major.  The assert is modelled as an Option: none when the layouts
differ (fail-fast before any write). -/
def convert {α β : Type} (dA : Buf α) (Aw : MatDesc) (dB : Buf β) (Bw : MatDesc)
    (cast : β → α) : Option (Buf α) :=
  if Aw.rowMajor = Bw.rowMajor then
    some (cond Aw.rowMajor
      (iterUp Aw.size1 (fun row b => iterUp Aw.size2 (fun col b =>
        wr b (Aw.off row col)
          (cast (dB (wrapIdx Aw.rowMajor Bw.start1 Bw.start2 Bw.inc1 Bw.inc2
                       Bw.isize1 Bw.isize2 row col)))) b) dA)
      (iterUp Aw.size2 (fun col b => iterUp Aw.size1 (fun row b =>
        wr b (Aw.off row col)
          (cast (dB (wrapIdx Aw.rowMajor Bw.start1 Bw.start2 Bw.inc1 Bw.inc2
                       Bw.isize1 Bw.isize2 row col)))) b) dA))
  else none

/-- The loop nest of am (matrix_operations.hpp lines 241-320) after the
assert: data_alpha = -alpha when flip_sign_alpha, then one of four loops
(row-major or column-major outer order crossed with division or
multiplication by data_alpha for reciprocal_alpha true or false). -/
def amCore (dA : Buf ℚ) (Aw : MatDesc) (dB : Buf ℚ) (Bw : MatDesc) (alpha : ℚ)
    (reciprocal_alpha flip_sign_alpha : Bool) : Buf ℚ :=
  let data_alpha := cond flip_sign_alpha (-alpha) alpha
  cond Aw.rowMajor
    (cond reciprocal_alpha
      (iterUp Aw.size1 (fun row b => iterUp Aw.size2 (fun col b =>
        wr b (Aw.off row col)
          (dB (wrapIdx Aw.rowMajor Bw.start1 Bw.start2 Bw.inc1 Bw.inc2
                 Bw.isize1 Bw.isize2 row col) / data_alpha)) b) dA)
      (iterUp Aw.size1 (fun row b => iterUp Aw.size2 (fun col b =>
        wr b (Aw.off row col)
          (dB (wrapIdx Aw.rowMajor Bw.start1 Bw.start2 Bw.inc1 Bw.inc2
                 Bw.isize1 Bw.isize2 row col) * data_alpha)) b) dA))
    (cond reciprocal_alpha
      (iterUp Aw.size2 (fun col b => iterUp Aw.size1 (fun row b =>
        wr b (Aw.off row col)
          (dB (wrapIdx Aw.rowMajor Bw.start1 Bw.start2 Bw.inc1 Bw.inc2
                 Bw.isize1 Bw.isize2 row col) / data_alpha)) b) dA)
      (iterUp Aw.size2 (fun col b => iterUp Aw.size1 (fun row b =>
        wr b (Aw.off row col)
          (dB (wrapIdx Aw.rowMajor Bw.start1 Bw.start2 Bw.inc1 Bw.inc2
                 Bw.isize1 Bw.isize2 row col) * data_alpha)) b) dA))

/-- The operation am with its entry assert modelled as an Option. -/
def am (dA : Buf ℚ) (Aw : MatDesc) (dB : Buf ℚ) (Bw : MatDesc) (alpha : ℚ)
    (reciprocal_alpha flip_sign_alpha : Bool) : Option (Buf ℚ) :=
  if Aw.rowMajor = Bw.rowMajor then
    some (amCore dA Aw dB Bw alpha reciprocal_alpha flip_sign_alpha)
  else none

/-- The operation ambm (matrix_operations.hpp lines 323-455): asserts equal
layouts of all three operands, then writes B scaled by alpha plus C scaled
by beta into A.  The source spells the four reciprocal combinations as four
identical loop nests; here the combination is selected inside the single
assignment expression. -/
def ambm (dA : Buf ℚ) (Aw : MatDesc) (dB : Buf ℚ) (Bw : MatDesc)
    (dC : Buf ℚ) (Cw : MatDesc) (alpha : ℚ) (reciprocal_alpha flip_sign_alpha : Bool)
    (beta : ℚ) (reciprocal_beta flip_sign_beta : Bool) : Option (Buf ℚ) :=
  if Aw.rowMajor = Bw.rowMajor ∧ Aw.rowMajor = Cw.rowMajor then
    let data_alpha := cond flip_sign_alpha (-alpha) alpha
    let data_beta := cond flip_sign_beta (-beta) beta
    some (cond Aw.rowMajor
      (iterUp Aw.size1 (fun row b => iterUp Aw.size2 (fun col b =>
        wr b (Aw.off row col)
          ((cond reciprocal_alpha
             (dB (wrapIdx Aw.rowMajor Bw.start1 Bw.start2 Bw.inc1 Bw.inc2
                    Bw.isize1 Bw.isize2 row col) / data_alpha)
             (dB (wrapIdx Aw.rowMajor Bw.start1 Bw.start2 Bw.inc1 Bw.inc2
                    Bw.isize1 Bw.isize2 row col) * data_alpha))
           + (cond reciprocal_beta
             (dC (wrapIdx Aw.rowMajor Cw.start1 Cw.start2 Cw.inc1 Cw.inc2
                    Cw.isize1 Cw.isize2 row col) / data_beta)
             (dC (wrapIdx Aw.rowMajor Cw.start1 Cw.start2 Cw.inc1 Cw.inc2
                    Cw.isize1 Cw.isize2 row col) * data_beta)))) b) dA)
      (iterUp Aw.size2 (fun col b => iterUp Aw.size1 (fun row b =>
        wr b (Aw.off row col)
          ((cond reciprocal_alpha
             (dB (wrapIdx Aw.rowMajor Bw.start1 Bw.start2 Bw.inc1 Bw.inc2
                    Bw.isize1 Bw.isize2 row col) / data_alpha)
             (dB (wrapIdx Aw.rowMajor Bw.start1 Bw.start2 Bw.inc1 Bw.inc2
                    Bw.isize1 Bw.isize2 row col) * data_alpha))
           + (cond reciprocal_beta
             (dC (wrapIdx Aw.rowMajor Cw.start1 Cw.start2 Cw.inc1 Cw.inc2
                    Cw.isize1 Cw.isize2 row col) / data_beta)
             (dC (wrapIdx Aw.rowMajor Cw.start1 Cw.start2 Cw.inc1 Cw.inc2
                    Cw.isize1 Cw.isize2 row col) * data_beta)))) b) dA))
  else none

/-- The binary element_op (matrix_operations.hpp lines 858-930): asserts
equal layouts of A, B, C, then applies the operation functor element-wise,
writing op(B(r,c), C(r,c)) into A(r,c). -/
def element_op {α : Type} (op : α → α → α) (dA : Buf α) (Aw : MatDesc)
    (dB : Buf α) (Bw : MatDesc) (dC : Buf α) (Cw : MatDesc) : Option (Buf α) :=
  if Aw.rowMajor = Bw.rowMajor ∧ Aw.rowMajor = Cw.rowMajor then
    some (cond Aw.rowMajor
      (iterUp Aw.size1 (fun row b => iterUp Aw.size2 (fun col b =>
        wr b (Aw.off row col)
          (op (dB (wrapIdx Aw.rowMajor Bw.start1 Bw.start2 Bw.inc1 Bw.inc2
                     Bw.isize1 Bw.isize2 row col))
              (dC (wrapIdx Aw.rowMajor Cw.start1 Cw.start2 Cw.inc1 Cw.inc2
                     Cw.isize1 Cw.isize2 row col)))) b) dA)
      (iterUp Aw.size2 (fun col b => iterUp Aw.size1 (fun row b =>
        wr b (Aw.off row col)
          (op (dB (wrapIdx Aw.rowMajor Bw.start1 Bw.start2 Bw.inc1 Bw.inc2
                     Bw.isize1 Bw.isize2 row col))
              (dC (wrapIdx Aw.rowMajor Cw.start1 Cw.start2 Cw.inc1 Cw.inc2
                     Cw.isize1 Cw.isize2 row col)))) b) dA))
  else none

/-- The operation matrix_assign (matrix_operations.hpp lines 595-638): the
loop extents are the internal (padded) sizes when clear is set, the logical
sizes otherwise; every visited cell is overwritten with the scalar. -/
def matrix_assign (dM : Buf ℚ) (w : MatDesc) (s : ℚ) (clear : Bool) : Buf ℚ :=
  let A_size1 := cond clear w.isize1 w.size1
  let A_size2 := cond clear w.isize2 w.size2
  cond w.rowMajor
    (iterUp A_size1 (fun row b => iterUp A_size2 (fun col b =>
      wr b (w.off row col) s) b) dM)
    (iterUp A_size2 (fun col b => iterUp A_size1 (fun row b =>
      wr b (w.off row col) s) b) dM)

/-- Loop for i = lo .. hi-1 over a state. -/
def iterFrom {σ : Type} (lo hi : Nat) (f : Nat → σ → σ) (s : σ) : σ :=
  iterUp (hi - lo) (fun t s => f (lo + t) s) s

/-- The operation copy_vec (matrix_operations.hpp lines 1790-1854).  Note:
the source initializes its local A_size2 from traits::size1(A) (line 1804),
so the row-copy loop bound is also the row count of A; both locals are
reproduced here.  The vector is written at raw indices i - row_start or
i - col_start of its buffer. -/
def copy_vec (dA : Buf ℚ) (Aw : MatDesc) (dV : Buf ℚ)
    (row_start col_start : Nat) (copy_col : Bool) : Buf ℚ :=
  let A_size1 := Aw.size1
  let A_size2 := Aw.size1
  cond copy_col
    (cond Aw.rowMajor
      (iterFrom row_start A_size1 (fun i b => wr b (i - row_start)
        (dA (rmIndex (i * Aw.inc1 + Aw.start1) (col_start * Aw.inc2 + Aw.start2)
              Aw.isize1 Aw.isize2))) dV)
      (iterFrom row_start A_size1 (fun i b => wr b (i - row_start)
        (dA (cmIndex (i * Aw.inc1 + Aw.start1) (col_start * Aw.inc2 + Aw.start2)
              Aw.isize1 Aw.isize2))) dV))
    (cond Aw.rowMajor
      (iterFrom col_start A_size2 (fun i b => wr b (i - col_start)
        (dA (rmIndex (row_start * Aw.inc1 + Aw.start1) (i * Aw.inc2 + Aw.start2)
              Aw.isize1 Aw.isize2))) dV)
      (iterFrom col_start A_size2 (fun i b => wr b (i - col_start)
        (dA (cmIndex (row_start * Aw.inc1 + Aw.start1) (i * Aw.inc2 + Aw.start2)
              Aw.isize1 Aw.isize2))) dV))

theorem iterUp_keep {σ : Type} (n : Nat) (f : Nat → σ → σ) (Pred : σ → Prop)
    (hkeep : ∀ i, i < n → ∀ s, Pred s → Pred (f i s)) (s : σ) (hs : Pred s) :
    Pred (iterUp n f s) := by
  induction n with
  | zero => exact hs
  | succ m ih =>
      rw [iterUp_succ]
      exact hkeep m (by omega) _ (ih (fun i hi => hkeep i (by omega)))

theorem iterUp_stable {σ : Type} (n : Nat) (f : Nat → σ → σ) (Pred : σ → Prop)
    (hkeep : ∀ i, i < n → ∀ s, Pred s → Pred (f i s)) (i0 : Nat) (h0 : i0 < n)
    (hset : ∀ s, Pred (f i0 s)) (s : σ) : Pred (iterUp n f s) := by
  induction n with
  | zero => omega
  | succ m ih =>
      rw [iterUp_succ]
      rcases Nat.lt_succ_iff_lt_or_eq.mp h0 with hlt | heq
      · exact hkeep m (by omega) _ (ih (fun i hi s hp => hkeep i (by omega) s hp) hlt)
      · subst heq
        exact hset _

theorem wr_keep {α : Type} (b : Buf α) (k t : Nat) (s : α) (h : b t = s) :
    (wr b k s) t = s := by
  by_cases ht : t = k
  · subst ht
    exact wr_same _ _ _
  · rw [wr_other _ _ _ _ ht]
    exact h

/-- A double loop in which every write stores the same scalar leaves that
scalar at every one of its targets. -/
theorem double_loop_wr_hits {α : Type} (P Q : Nat) (tgt : Nat → Nat → Nat) (s : α)
    (b : Buf α) (j0 k0 : Nat) (hj0 : j0 < P) (hk0 : k0 < Q) :
    (iterUp P (fun j b => iterUp Q (fun k b => wr b (tgt j k) s) b) b) (tgt j0 k0) = s := by
  refine iterUp_stable P _ (fun b' => b' (tgt j0 k0) = s) ?_ j0 hj0 ?_ b
  · intro i hi b' hp
    refine iterUp_keep Q _ (fun b'' => b'' (tgt j0 k0) = s) ?_ b' hp
    intro k hk b'' hp2
    exact wr_keep _ _ _ _ hp2
  · intro b'
    refine iterUp_stable Q _ (fun b'' => b'' (tgt j0 k0) = s) ?_ k0 hk0 ?_ b'
    · intro k hk b'' hp2
      exact wr_keep _ _ _ _ hp2
    · intro b''
      exact wr_same _ _ _

theorem iterFrom_wr_eval {α : Type} (lo hi : Nat) (tgt : Nat → Nat) (v : Nat → α)
    (b : Buf α) (i0 : Nat) (hlo : lo ≤ i0) (hhi : i0 < hi)
    (hne : ∀ i2, lo ≤ i2 → i2 < hi → i2 ≠ i0 → tgt i2 ≠ tgt i0) :
    (iterFrom lo hi (fun i b => wr b (tgt i) (v i)) b) (tgt i0) = v i0 := by
  unfold iterFrom
  refine iterUp_single (hi - lo) (i0 - lo) (by omega) _ (fun b => b (tgt i0)) (fun _ => v i0)
    ?_ ?_ b
  · intro t ht htne b'
    exact wr_other _ _ _ _ (fun he => hne (lo + t) (by omega) (by omega) (by omega) he.symm)
  · intro b'
    have h : lo + (i0 - lo) = i0 := by omega
    rw [h]
    exact wr_same _ _ _

/-- C7: every element-wise operation (convert, am, ambm, element_op)
asserts at entry that all operand matrices share the row_major flag: with
differing flags the call fails fast (none) before any element of the
destination is modified, and with equal flags the assertion passes (the
call returns a result). -/
theorem claim_C7_layout_mismatch_fail_fast {α β : Type}
    (dA2 : Buf α) (dB2 : Buf β) (cast : β → α)
    (dA dB dC : Buf ℚ) (dE dF dG : Buf α) (op : α → α → α)
    (Aw Bw Cw : MatDesc) (alpha beta : ℚ) (ra fa rb fb : Bool) :
    (Aw.rowMajor ≠ Bw.rowMajor → convert dA2 Aw dB2 Bw cast = none) ∧
    (Aw.rowMajor = Bw.rowMajor → (convert dA2 Aw dB2 Bw cast).isSome = true) ∧
    (Aw.rowMajor ≠ Bw.rowMajor → am dA Aw dB Bw alpha ra fa = none) ∧
    (Aw.rowMajor = Bw.rowMajor → (am dA Aw dB Bw alpha ra fa).isSome = true) ∧
    (¬(Aw.rowMajor = Bw.rowMajor ∧ Aw.rowMajor = Cw.rowMajor) →
       ambm dA Aw dB Bw dC Cw alpha ra fa beta rb fb = none) ∧
    ((Aw.rowMajor = Bw.rowMajor ∧ Aw.rowMajor = Cw.rowMajor) →
       (ambm dA Aw dB Bw dC Cw alpha ra fa beta rb fb).isSome = true) ∧
    (¬(Aw.rowMajor = Bw.rowMajor ∧ Aw.rowMajor = Cw.rowMajor) →
       element_op op dE Aw dF Bw dG Cw = none) ∧
    ((Aw.rowMajor = Bw.rowMajor ∧ Aw.rowMajor = Cw.rowMajor) →
       (element_op op dE Aw dF Bw dG Cw).isSome = true) := by
  refine ⟨?_, ?_, ?_, ?_, ?_, ?_, ?_, ?_⟩ <;> intro h <;>
    simp [convert, am, ambm, element_op, h]
  · exact h.1.symm.trans h.2
  · exact h.1.symm.trans h.2

def wRM : MatDesc := ⟨0, 0, 1, 1, 2, 2, 2, 2, true⟩

def wCM : MatDesc := ⟨0, 0, 1, 1, 2, 2, 2, 2, false⟩

/-- Witness for C7 at concrete descriptors: a row-major destination with a
column-major source fails fast; two row-major operands pass. -/
theorem claim_C7_layout_mismatch_fail_fast_witness :
    (wRM.rowMajor ≠ wCM.rowMajor) ∧
    am b0 wRM b0 wCM (5 : ℚ) true true = none ∧
    (am b0 wRM b0 wRM (5 : ℚ) true true).isSome = true :=
  ⟨by decide,
   (claim_C7_layout_mismatch_fail_fast b0 b0 id b0 b0 b0 b0 b0 b0 (fun a _ => a)
      wRM wCM wRM 5 7 true true true true).2.2.1 (by decide),
   (claim_C7_layout_mismatch_fail_fast b0 b0 id b0 b0 b0 b0 b0 b0 (fun a _ => a)
      wRM wRM wRM 5 7 true true true true).2.2.2.1 (by decide)⟩

/-- C8: am writes mat2(r, c) * a when reciprocal_alpha is false and
mat2(r, c) / a when reciprocal_alpha is true, where a = -alpha if
flip_sign_alpha else alpha; with both flags the effective factor is
-(1/alpha). -/
theorem claim_C8_am_flip_reciprocal
    (dA : Buf ℚ) (Aw : MatDesc) (dB : Buf ℚ) (Bw : MatDesc) (alpha : ℚ)
    (ra fa : Bool) (r c : Nat)
    (hL : Aw.rowMajor = Bw.rowMajor)
    (hr : r < Aw.size1) (hc : c < Aw.size2)
    (hinj : ∀ r' c', r' < Aw.size1 → c' < Aw.size2 → Aw.off r' c' = Aw.off r c →
      r' = r ∧ c' = c) :
    am dA Aw dB Bw alpha ra fa = some (amCore dA Aw dB Bw alpha ra fa) ∧
    amCore dA Aw dB Bw alpha ra fa (Aw.off r c)
      = (cond ra
          (dB (wrapIdx Aw.rowMajor Bw.start1 Bw.start2 Bw.inc1 Bw.inc2 Bw.isize1 Bw.isize2 r c)
             / (cond fa (-alpha) alpha))
          (dB (wrapIdx Aw.rowMajor Bw.start1 Bw.start2 Bw.inc1 Bw.inc2 Bw.isize1 Bw.isize2 r c)
             * (cond fa (-alpha) alpha))) ∧
    (ra = true → fa = true →
      amCore dA Aw dB Bw alpha ra fa (Aw.off r c)
      = dB (wrapIdx Aw.rowMajor Bw.start1 Bw.start2 Bw.inc1 Bw.inc2 Bw.isize1 Bw.isize2 r c)
          * (-(1 / alpha))) := by
  have hcell : amCore dA Aw dB Bw alpha ra fa (Aw.off r c)
      = (cond ra
          (dB (wrapIdx Aw.rowMajor Bw.start1 Bw.start2 Bw.inc1 Bw.inc2 Bw.isize1 Bw.isize2 r c)
             / (cond fa (-alpha) alpha))
          (dB (wrapIdx Aw.rowMajor Bw.start1 Bw.start2 Bw.inc1 Bw.inc2 Bw.isize1 Bw.isize2 r c)
             * (cond fa (-alpha) alpha))) := by
    simp only [amCore]
    cases Aw.rowMajor <;> cases ra
    · exact double_loop_wr_eval Aw.size2 Aw.size1 (fun c' r' => Aw.off r' c') _ _ c r hc hr
        (fun c' r' h1 h2 hp he =>
          hp ⟨(hinj r' c' h2 h1 he).2, (hinj r' c' h2 h1 he).1⟩) rfl dA
    · exact double_loop_wr_eval Aw.size2 Aw.size1 (fun c' r' => Aw.off r' c') _ _ c r hc hr
        (fun c' r' h1 h2 hp he =>
          hp ⟨(hinj r' c' h2 h1 he).2, (hinj r' c' h2 h1 he).1⟩) rfl dA
    · exact double_loop_wr_eval Aw.size1 Aw.size2 (fun r' c' => Aw.off r' c') _ _ r c hr hc
        (fun r' c' h1 h2 hp he =>
          hp ⟨(hinj r' c' h1 h2 he).1, (hinj r' c' h1 h2 he).2⟩) rfl dA
    · exact double_loop_wr_eval Aw.size1 Aw.size2 (fun r' c' => Aw.off r' c') _ _ r c hr hc
        (fun r' c' h1 h2 hp he =>
          hp ⟨(hinj r' c' h1 h2 he).1, (hinj r' c' h1 h2 he).2⟩) rfl dA
  refine ⟨by simp [am, hL], hcell, ?_⟩
  intro hra hfa
  subst hra
  subst hfa
  rw [hcell, cond_true, cond_true, div_neg, mul_neg, mul_one_div]

/-- Witness for C8 at a concrete input with both flags set: the effective
factor is -(1/5). -/
theorem claim_C8_am_flip_reciprocal_witness :
    (wRM.rowMajor = wRM.rowMajor) ∧
    (am b0 wRM b0 wRM (5 : ℚ) true true = some (amCore b0 wRM b0 wRM 5 true true) ∧
     amCore b0 wRM b0 wRM 5 true true (wRM.off 1 0)
       = (cond true
           (b0 (wrapIdx wRM.rowMajor wRM.start1 wRM.start2 wRM.inc1 wRM.inc2 wRM.isize1
                  wRM.isize2 1 0) / (cond true (-(5 : ℚ)) 5))
           (b0 (wrapIdx wRM.rowMajor wRM.start1 wRM.start2 wRM.inc1 wRM.inc2 wRM.isize1
                  wRM.isize2 1 0) * (cond true (-(5 : ℚ)) 5))) ∧
     (true = true → true = true →
       amCore b0 wRM b0 wRM 5 true true (wRM.off 1 0)
       = b0 (wrapIdx wRM.rowMajor wRM.start1 wRM.start2 wRM.inc1 wRM.inc2 wRM.isize1
               wRM.isize2 1 0) * (-(1 / 5)))) := by
  refine ⟨rfl, ?_⟩
  refine claim_C8_am_flip_reciprocal b0 wRM b0 wRM 5 true true 1 0 rfl (by decide) (by decide) ?_
  intro r' c' h1 h2 h5
  simp only [wRM, cond_false] at h1 h2
  simp only [wRM, MatDesc.off, wrapIdx, rmIndex, cond_true] at h5
  constructor <;> omega

/-- C9: matrix_assign with clear false writes the scalar to exactly the
logical size1 x size2 cells, leaving every other offset (the padding in
particular) unchanged; with clear true the loop extents become the internal
sizes, so for an unshifted unit-stride view every cell of the padded
internal buffer, padding included, receives the scalar. -/
theorem claim_C9_matrix_assign_extents (dM : Buf ℚ) (w : MatDesc) (s : ℚ) :
    (∀ t, (∀ r, r < w.size1 → ∀ c, c < w.size2 → t ≠ w.off r c) →
       matrix_assign dM w s false t = dM t) ∧
    (∀ r, r < w.size1 → ∀ c, c < w.size2 →
       matrix_assign dM w s false (w.off r c) = s) ∧
    (w.start1 = 0 → w.start2 = 0 → w.inc1 = 1 → w.inc2 = 1 →
       ∀ t, t < w.isize1 * w.isize2 → matrix_assign dM w s true t = s) := by
  refine ⟨?_, ?_, ?_⟩
  · intro t h
    simp only [matrix_assign, cond_false]
    cases w.rowMajor
    · rw [cond_false]
      exact double_loop_wr_frame _ _ (fun c' r' => w.off r' c') _ t
        (fun c' r' h1 h2 => (h r' h2 c' h1).symm) dM
    · rw [cond_true]
      exact double_loop_wr_frame _ _ (fun r' c' => w.off r' c') _ t
        (fun r' c' h1 h2 => (h r' h1 c' h2).symm) dM
  · intro r hr c hc
    simp only [matrix_assign, cond_false]
    cases w.rowMajor
    · rw [cond_false]
      exact double_loop_wr_hits w.size2 w.size1 (fun c' r' => w.off r' c') s dM c r hc hr
    · rw [cond_true]
      exact double_loop_wr_hits w.size1 w.size2 (fun r' c' => w.off r' c') s dM r c hr hc
  · intro h01 h02 hi1 hi2 t ht
    simp only [matrix_assign, cond_true]
    cases hrm : w.rowMajor
    · have hiz : 1 ≤ w.isize1 := by
        rcases Nat.eq_zero_or_pos w.isize1 with h0 | h1
        · rw [h0, Nat.zero_mul] at ht
          omega
        · omega
      have hmod : t % w.isize1 < w.isize1 := Nat.mod_lt _ (by omega)
      have hdiv : t / w.isize1 < w.isize2 := by
        rw [Nat.div_lt_iff_lt_mul (by omega)]
        rw [Nat.mul_comm]
        exact ht
      have hofft : w.off (t % w.isize1) (t / w.isize1) = t := by
        simp only [MatDesc.off, wrapIdx, hrm, cond_false, cmIndex, h01, h02, hi1, hi2,
          Nat.mul_one, Nat.add_zero]
        have hdm := Nat.div_add_mod t w.isize1
        have hcm : w.isize1 * (t / w.isize1) = (t / w.isize1) * w.isize1 := Nat.mul_comm _ _
        omega
      rw [← hofft, cond_false]
      exact double_loop_wr_hits w.isize2 w.isize1 (fun c' r' => w.off r' c') s dM
        (t / w.isize1) (t % w.isize1) hdiv hmod
    · have hiz : 1 ≤ w.isize2 := by
        rcases Nat.eq_zero_or_pos w.isize2 with h0 | h1
        · rw [h0, Nat.mul_zero] at ht
          omega
        · omega
      have hmod : t % w.isize2 < w.isize2 := Nat.mod_lt _ (by omega)
      have hdiv : t / w.isize2 < w.isize1 := by
        rw [Nat.div_lt_iff_lt_mul (by omega)]
        exact ht
      have hofft : w.off (t / w.isize2) (t % w.isize2) = t := by
        simp only [MatDesc.off, wrapIdx, hrm, cond_true, rmIndex, h01, h02, hi1, hi2,
          Nat.mul_one, Nat.add_zero]
        have hdm := Nat.div_add_mod t w.isize2
        have hcm : w.isize2 * (t / w.isize2) = (t / w.isize2) * w.isize2 := Nat.mul_comm _ _
        omega
      rw [← hofft, cond_true]
      exact double_loop_wr_hits w.isize1 w.isize2 (fun r' c' => w.off r' c') s dM
        (t / w.isize2) (t % w.isize2) hdiv hmod

def wPad : MatDesc := ⟨0, 0, 1, 1, 2, 2, 3, 4, true⟩

/-- Witness for C9 at a 2 x 2 logical view inside a 3 x 4 internal buffer:
offset 11 is padding, untouched with clear false and overwritten with
clear true. -/
theorem claim_C9_matrix_assign_extents_witness :
    (∀ r, r < wPad.size1 → ∀ c, c < wPad.size2 → (11 : Nat) ≠ wPad.off r c) ∧
    matrix_assign b0 wPad 9 false 11 = b0 11 ∧
    matrix_assign b0 wPad 9 false (wPad.off 1 1) = 9 ∧
    matrix_assign b0 wPad 9 true 11 = 9 :=
  ⟨by decide,
   (claim_C9_matrix_assign_extents b0 wPad 9).1 11 (by decide),
   (claim_C9_matrix_assign_extents b0 wPad 9).2.1 1 (by decide) 1 (by decide),
   (claim_C9_matrix_assign_extents b0 wPad 9).2.2 rfl rfl rfl rfl 11 (by decide)⟩

/-- C10: copy_vec copies with both loop bounds taken from size1(A), because
the local A_size2 is initialized from traits::size1(A): the column copy
writes V[i - row_start] = A(i, col_start) for row_start <= i < size1(A),
and the row copy writes V[i - col_start] = A(row_start, i) for
col_start <= i < size1(A) - the row count, not the column count. -/
theorem claim_C10_copy_vec_bounds (dA : Buf ℚ) (Aw : MatDesc) (dV : Buf ℚ)
    (row_start col_start i : Nat) :
    (row_start ≤ i → i < Aw.size1 →
      copy_vec dA Aw dV row_start col_start true (i - row_start)
      = dA (cond Aw.rowMajor
          (rmIndex (i * Aw.inc1 + Aw.start1) (col_start * Aw.inc2 + Aw.start2)
            Aw.isize1 Aw.isize2)
          (cmIndex (i * Aw.inc1 + Aw.start1) (col_start * Aw.inc2 + Aw.start2)
            Aw.isize1 Aw.isize2))) ∧
    (col_start ≤ i → i < Aw.size1 →
      copy_vec dA Aw dV row_start col_start false (i - col_start)
      = dA (cond Aw.rowMajor
          (rmIndex (row_start * Aw.inc1 + Aw.start1) (i * Aw.inc2 + Aw.start2)
            Aw.isize1 Aw.isize2)
          (cmIndex (row_start * Aw.inc1 + Aw.start1) (i * Aw.inc2 + Aw.start2)
            Aw.isize1 Aw.isize2))) := by
  constructor
  · intro h1 h2
    simp only [copy_vec, cond_true]
    cases Aw.rowMajor
    · rw [cond_false, cond_false]
      exact iterFrom_wr_eval row_start Aw.size1 (fun i2 => i2 - row_start) _ dV i h1 h2
        (fun i2 ha hb hcne => by show i2 - row_start ≠ i - row_start; omega)
    · rw [cond_true, cond_true]
      exact iterFrom_wr_eval row_start Aw.size1 (fun i2 => i2 - row_start) _ dV i h1 h2
        (fun i2 ha hb hcne => by show i2 - row_start ≠ i - row_start; omega)
  · intro h1 h2
    simp only [copy_vec, cond_false]
    cases Aw.rowMajor
    · rw [cond_false, cond_false]
      exact iterFrom_wr_eval col_start Aw.size1 (fun i2 => i2 - col_start) _ dV i h1 h2
        (fun i2 ha hb hcne => by show i2 - col_start ≠ i - col_start; omega)
    · rw [cond_true, cond_true]
      exact iterFrom_wr_eval col_start Aw.size1 (fun i2 => i2 - col_start) _ dV i h1 h2
        (fun i2 ha hb hcne => by show i2 - col_start ≠ i - col_start; omega)

def w35 : MatDesc := ⟨0, 0, 1, 1, 3, 5, 3, 5, true⟩

/-- Witness for C10 at a 3 x 5 row-major matrix: the row copy runs only up
to i < 3 = size1, not 5 = size2. -/
theorem claim_C10_copy_vec_bounds_witness :
    ((1 : Nat) ≤ 2 ∧ (2 : Nat) < w35.size1) ∧
    copy_vec b0 w35 b0 0 1 false (2 - 1)
      = b0 (cond w35.rowMajor
          (rmIndex (0 * w35.inc1 + w35.start1) (2 * w35.inc2 + w35.start2)
            w35.isize1 w35.isize2)
          (cmIndex (0 * w35.inc1 + w35.start1) (2 * w35.inc2 + w35.start2)
            w35.isize1 w35.isize2)) :=
  ⟨⟨by decide, by decide⟩,
   (claim_C10_copy_vec_bounds b0 w35 b0 0 1 2).2 (by decide) (by decide)⟩
